import Mathlib

set_option maxHeartbeats 1000000

/- Shallow embedding of the order-construction and request-signing core of
   the `nash-protocol` crate: `protocol/place_orders/request.rs` and
   `types/blockchain/btc.rs`, together with the collaborator types those
   files use.  Rust `i64`/`u32` arithmetic is embedded as `Int`/`Nat` with
   explicit two's-complement wrapping where the code casts.  Types whose
   definitions are outside the excerpt are modelled from the specification
   and their doc comments say so. -/

/-- Protocol errors are `ProtocolError(&'static str)` values: a message. -/
structure ProtocolError where
  msg : String
deriving DecidableEq

/-- Modelled from the spec: the supported blockchains; `request.rs` matches
exhaustively on `Ethereum`, `Bitcoin` and `NEO`. -/
inductive Blockchain where
  | Ethereum
  | Bitcoin
  | NEO
deriving DecidableEq

/-- Modelled from the spec: a nonce is either a concrete numeric (u32) value
bound to a chain/asset or the `Crosschain` sentinel. -/
inductive Nonce where
  | Value (n : Nat)
  | Crosschain
deriving DecidableEq

/-- Modelled from the spec: an asset tag carries a name and its native
settlement blockchain (`Asset::blockchain()`). -/
structure Asset where
  name : String
  blockchain : Blockchain
deriving DecidableEq

/-- Modelled from the spec: a market side: an asset together with its
encoding precision (`market.asset_a.asset` is used in `request.rs`). -/
structure AssetofPrecision where
  asset : Asset
  precision : Nat
deriving DecidableEq

/-- Modelled from the spec: an asset tag plus a decimal quantity denominated
in that asset (Rust `AssetAmount` with a `BigDecimal`, embedded as `Int`). -/
structure AssetAmount where
  asset : Asset
  amount : Int
deriving DecidableEq

/-- Modelled from the spec: applying a requested amount to a market side;
fails when the amount cannot be represented (non-negative). -/
def AssetofPrecision.with_amount (a : AssetofPrecision) (amount : Int) :
    Except ProtocolError AssetAmount :=
  if 0 ≤ amount then .ok { asset := a.asset, amount := amount }
  else .error ⟨"InvalidAmount"⟩

/-- Rust `x as u32` on an `i64` value: two's-complement truncation to 32
bits.  `Int.emod` with a positive modulus is non-negative, so the result is
the represented `u32` value. -/
def u32cast (x : Int) : Nat :=
  (x % (2 ^ 32 : Int)).toNat

/-- Rust wrapping `i64` arithmetic: reduce into `[-2^63, 2^63)`. -/
def i64wrap (x : Int) : Int :=
  (x + 2 ^ 63) % 2 ^ 64 - 2 ^ 63

/-- Modelled from the spec: a user-specified order rate (`OrderRate`,
carrying a `BigDecimal`, embedded as `Int`). -/
structure OrderRate where
  value : Int
deriving DecidableEq

/-- Modelled from the spec: `OrderRate::to_bigdecimal`; conversion of the
stored rate into a decimal value. -/
def OrderRate.to_bigdecimal (r : OrderRate) : Except ProtocolError Int :=
  .ok r.value

/-- Modelled from the spec: the `Rate` sentinels used by fill-order
construction (`Rate::MinOrderRate`, `Rate::MaxOrderRate`) plus a concrete
rate. -/
inductive Rate where
  | MinOrderRate
  | MaxOrderRate
  | OrderR (r : OrderRate)
deriving DecidableEq

/-- Modelled from the spec: order side. -/
inductive BuyOrSell where
  | Buy
  | Sell
deriving DecidableEq

/-- Modelled from the spec: order cancellation policies; only
`GoodTilTime` carries a timestamp (embedded as `Int`). -/
inductive OrderCancellationPolicy where
  | GoodTilCancelled
  | GoodTilTime (time : Int)
  | ImmediateOrCancel
  | FillOrKill
deriving DecidableEq

/-- Modelled from the spec: a market is the ordered pair of its two sides. -/
structure Market where
  asset_a : AssetofPrecision
  asset_b : AssetofPrecision
deriving DecidableEq

/-- Modelled from the spec: the market name is the two asset names joined
by the pair separator. -/
def Market.market_name (m : Market) : String :=
  m.asset_a.asset.name ++ "_" ++ m.asset_b.asset.name

/-- Modelled from the spec: `Market::invert` swaps the two sides (rate
semantics correspondingly inverted). -/
def Market.invert (m : Market) : Market :=
  { asset_a := m.asset_b, asset_b := m.asset_a }

/-- Modelled from the spec: `Market::blockchains` lists the blockchains the
market touches, without duplicates. -/
def Market.blockchains (m : Market) : List Blockchain :=
  if m.asset_a.asset.blockchain = m.asset_b.asset.blockchain then
    [m.asset_a.asset.blockchain]
  else
    [m.asset_a.asset.blockchain, m.asset_b.asset.blockchain]

/-- Modelled from the spec: the structured intermediate form produced by
serialization (a JSON value). -/
inductive Json where
  | null
  | bool (b : Bool)
  | num (n : Int)
  | str (s : String)
  | arr (xs : List Json)
  | obj (fields : List (String × Json))

def Json.ofOptionStr : Option String → Json
  | some s => .str s
  | none => .null

def Json.ofOptionBool : Option Bool → Json
  | some b => .bool b
  | none => .null

def Json.ofOptionInt : Option Int → Json
  | some n => .num n
  | none => .null

mutual

/-- Modelled from the spec: remove every field whose name is in `ignore`,
recursively, from the structured form. -/
def Json.removeKeys (ignore : List String) : Json → Json
  | .null => .null
  | .bool b => .bool b
  | .num n => .num n
  | .str s => .str s
  | .arr xs => .arr (Json.removeKeysList ignore xs)
  | .obj fields => .obj (Json.removeKeysFields ignore fields)

def Json.removeKeysList (ignore : List String) : List Json → List Json
  | [] => []
  | x :: xs => Json.removeKeys ignore x :: Json.removeKeysList ignore xs

def Json.removeKeysFields (ignore : List String) :
    List (String × Json) → List (String × Json)
  | [] => []
  | (k, v) :: rest =>
    if ignore.contains k then Json.removeKeysFields ignore rest
    else (k, Json.removeKeys ignore v) :: Json.removeKeysFields ignore rest

end

mutual

/-- Modelled from the spec: deterministic re-serialization of the structured
form; fields are kept in their fixed canonical order. -/
def Json.dump : Json → String
  | .null => "null"
  | .bool b => toString b
  | .num n => toString n
  | .str s => "\"" ++ s ++ "\""
  | .arr xs => "[" ++ Json.dumpList xs ++ "]"
  | .obj fields => "\x7b" ++ Json.dumpFields fields ++ "\x7d"

def Json.dumpList : List Json → String
  | [] => ""
  | [x] => Json.dump x
  | x :: xs => Json.dump x ++ "," ++ Json.dumpList xs

def Json.dumpFields : List (String × Json) → String
  | [] => ""
  | [(k, v)] => "\"" ++ k ++ "\":" ++ Json.dump v
  | (k, v) :: rest => "\"" ++ k ++ "\":" ++ Json.dump v ++ "," ++ Json.dumpFields rest

end

/-- Modelled from the spec (`general_canonical_string` is outside the
excerpt): prefix the operation name, drop the ignored fields, and
re-serialize deterministically. -/
def general_canonical_string (name : String) (request : Json)
    (ignore : List String) : String :=
  name ++ ":" ++ (request.removeKeys ignore).dump

/-- Modelled from the spec: an Ethereum contract address (the result of
`PublicKey::to_address` plus the `try_into` conversion). -/
structure EthAddress where
  addr : String
deriving DecidableEq

/-- Modelled from the spec: a NEO-curve public key
(`crate::types::neo::PublicKey`). -/
structure NeoPublicKey where
  hex : String
deriving DecidableEq

/-- Modelled from the spec: a chain-generic public key
(`crate::types::PublicKey`).  Converting it to an Ethereum address or to a
NEO public key may each fail with a key-conversion error, so the model
carries the outcomes of those conversions. -/
structure PublicKey where
  eth_address : Except ProtocolError EthAddress
  neo_public_key : Except ProtocolError NeoPublicKey

namespace btc

/-- Modelled from the spec: placeholder for a secp256k1 curve point
(`mpc_wallet_lib` `Secp256k1Point`), identified by its hex encoding. -/
structure Secp256k1Point where
  hex : String
deriving DecidableEq

/-- Placeholder for a BTC address (`types/blockchain/btc.rs`). -/
structure Address where
  inner : String
deriving DecidableEq

/-- `btc::Address::new`. -/
def Address.new (s : String) : Except ProtocolError Address :=
  .ok { inner := s }

/-- `btc::PublicKey` wraps a secp256k1 point. -/
structure PublicKey where
  inner : Secp256k1Point
deriving DecidableEq

/-- `btc::PublicKey::to_address`: unimplemented for BTC, always an error. -/
def PublicKey.to_address (_ : PublicKey) : Except ProtocolError Address :=
  .error ⟨"This has not been implemented for BTC"⟩

/-- `btc::PublicKey::to_hex`. -/
def PublicKey.to_hex (k : PublicKey) : String :=
  k.inner.hex

end btc

/-- A request-payload signature (`RequestPayloadSignature`): signed digest
plus public key.  The GraphQL `Signature` type has the same content and the
`.into()` conversions between them are the identity. -/
structure RequestPayloadSignature where
  signed_digest : String
  public_key : String
deriving DecidableEq

/-- `RequestPayloadSignature::empty()`. -/
def RequestPayloadSignature.empty : RequestPayloadSignature :=
  { signed_digest := "", public_key := "" }

/-- Modelled from the spec: a blockchain-specific signature payload as sent
in the GraphQL `blockchainSignatures` list
(`place_market_order::BlockchainSignature` /
`place_limit_order::BlockchainSignature`). -/
structure BlockchainSignature where
  signature : String
deriving DecidableEq

namespace eth

/-- Modelled from the spec: the Ethereum fill order
(`place_order::blockchain::eth::FillOrder`), with the fields passed by
`make_fill_order`, in order. -/
structure FillOrder where
  address : EthAddress
  asset_from : Asset
  asset_to : Asset
  nonce_from : Nonce
  nonce_to : Nonce
  amount : Int
  min_order : Rate
  max_order : Rate
  fee_rate : Rate
  order_nonce : Nonce
deriving DecidableEq

end eth

namespace neo

/-- Modelled from the spec: the NEO fill order
(`place_order::blockchain::neo::FillOrder`), with the fields passed by
`make_fill_order`, in order. -/
structure FillOrder where
  public_key : NeoPublicKey
  asset_from : Asset
  asset_to : Asset
  nonce_from : Nonce
  nonce_to : Nonce
  amount : Int
  min_order : Rate
  max_order : Rate
  fee_rate : Rate
  order_nonce : Nonce
deriving DecidableEq

end neo

namespace btcfill

/-- Modelled from the spec: the Bitcoin fill order
(`place_order::blockchain::btc::FillOrder`): only the crosschain-adjusted
from/to nonces. -/
structure FillOrder where
  nonce_from : Nonce
  nonce_to : Nonce
deriving DecidableEq

end btcfill

/-- `place_order::blockchain::FillOrder`: the chain-tagged settlement
structure. -/
inductive FillOrder where
  | Ethereum (o : eth.FillOrder)
  | Bitcoin (o : btcfill.FillOrder)
  | NEO (o : neo.FillOrder)
deriving DecidableEq

/-- The crosschain-adjusted from-nonce stored in a fill order. -/
def FillOrder.nonce_from : FillOrder → Nonce
  | .Ethereum o => o.nonce_from
  | .Bitcoin o => o.nonce_from
  | .NEO o => o.nonce_from

/-- The crosschain-adjusted to-nonce stored in a fill order. -/
def FillOrder.nonce_to : FillOrder → Nonce
  | .Ethereum o => o.nonce_to
  | .Bitcoin o => o.nonce_to
  | .NEO o => o.nonce_to

/-- The order nonce stored in a fill order (Bitcoin fill orders carry
none). -/
def FillOrder.order_nonce : FillOrder → Option Nonce
  | .Ethereum o => some o.order_nonce
  | .Bitcoin _ => none
  | .NEO o => some o.order_nonce

/-- Modelled from the spec: the external signing capability (`Signer`): it
signs canonical strings at the account level, derives a child public key per
blockchain (which may fail when key material is missing), and signs
blockchain fill-order data deterministically. -/
structure Signer where
  sign_canonical_string : String → RequestPayloadSignature
  child_public_key : Blockchain → Except ProtocolError PublicKey
  sign_blockchain_data : FillOrder → String

/-- Modelled from the spec: `FillOrder::to_market_blockchain_signature`:
convert the fill order into the blockchain-specific signature payload,
signed with the capability matching its chain. -/
def FillOrder.to_market_blockchain_signature (fo : FillOrder)
    (signer : Signer) : Except ProtocolError BlockchainSignature :=
  .ok { signature := signer.sign_blockchain_data fo }

/-- Modelled from the spec: shared session state: the market catalog, the
per-asset nonce pools, and the signing capability. -/
structure State where
  markets : List (String × Market)
  asset_nonces : Option (List (String × List Nat))
  signer_opt : Option Signer

/-- Modelled from the spec: `State::get_market`, failing with
`UnknownMarket` when the name is not in the catalog. -/
def State.get_market (st : State) (name : String) : Except ProtocolError Market :=
  match st.markets.lookup name with
  | some m => .ok m
  | none => .error ⟨"UnknownMarket"⟩

/-- Modelled from the spec: `State::signer`, failing with
`SigningUnavailable` when the signing capability is absent. -/
def State.signer (st : State) : Except ProtocolError Signer :=
  match st.signer_opt with
  | some s => .ok s
  | none => .error ⟨"SigningUnavailable"⟩

/-- GraphQL currency-amount parameters (`CurrencyAmountParams`). -/
structure CurrencyAmountParams where
  amount : String
  currency : String
deriving DecidableEq

/-- GraphQL currency-price parameters
(`place_limit_order::CurrencyPriceParams`). -/
structure CurrencyPriceParams where
  currency_a : String
  currency_b : String
  amount : String
deriving DecidableEq

/-- Modelled from the spec: the `TryInto<CurrencyAmountParams>` conversion
of an asset amount; fails when the amount is not representable. -/
def AssetAmount.try_into_params (a : AssetAmount) :
    Except ProtocolError CurrencyAmountParams :=
  if 0 ≤ a.amount then
    .ok { amount := toString a.amount, currency := a.asset.name }
  else .error ⟨"InvalidAmount"⟩

namespace place_limit_order

/-- GraphQL `PlaceLimitOrderParams`, with exactly the fields assigned by
`LimitOrdersConstructor::graphql_request`. -/
structure PlaceLimitOrderParams where
  client_order_id : Option String
  allow_taker : Option Bool
  buy_or_sell : BuyOrSell
  cancel_at : Option String
  cancellation_policy : OrderCancellationPolicy
  market_name : String
  amount : CurrencyAmountParams
  nonce_from : Int
  nonce_to : Int
  nonce_order : Int
  timestamp : Int
  limit_price : CurrencyPriceParams
  blockchain_signatures : List (Option BlockchainSignature)
deriving DecidableEq

/-- GraphQL `place_limit_order::Variables`. -/
structure Variables where
  payload : PlaceLimitOrderParams
  affiliate : Option String
  signature : RequestPayloadSignature
deriving DecidableEq

end place_limit_order

namespace place_market_order

/-- GraphQL `PlaceMarketOrderParams`, with exactly the fields assigned by
`MarketOrderConstructor::graphql_request`. -/
structure PlaceMarketOrderParams where
  buy_or_sell : BuyOrSell
  client_order_id : Option String
  market_name : String
  amount : CurrencyAmountParams
  nonce_from : Option Int
  nonce_to : Option Int
  nonce_order : Int
  timestamp : Int
  blockchain_signatures : List (Option BlockchainSignature)
deriving DecidableEq

/-- GraphQL `place_market_order::Variables`. -/
structure Variables where
  payload : PlaceMarketOrderParams
  affiliate : Option String
  signature : RequestPayloadSignature
deriving DecidableEq

end place_market_order

/-- Serde serialization of a `BuyOrSell` value. -/
def BuyOrSell.toJson : BuyOrSell → Json
  | .Buy => .str "BUY"
  | .Sell => .str "SELL"

/-- Serde serialization of a cancellation policy. -/
def OrderCancellationPolicy.toJson : OrderCancellationPolicy → Json
  | .GoodTilCancelled => .str "GOOD_TIL_CANCELLED"
  | .GoodTilTime _ => .str "GOOD_TIL_TIME"
  | .ImmediateOrCancel => .str "IMMEDIATE_OR_CANCEL"
  | .FillOrKill => .str "FILL_OR_KILL"

/-- Serde serialization of one blockchain signature entry. -/
def BlockchainSignature.toJson (s : BlockchainSignature) : Json :=
  .obj [("signature", .str s.signature)]

def Json.ofOptionBcSig : Option BlockchainSignature → Json
  | some s => s.toJson
  | none => .null

/-- Serde serialization of a signature value. -/
def RequestPayloadSignature.toJson (s : RequestPayloadSignature) : Json :=
  .obj [("signed_digest", .str s.signed_digest), ("public_key", .str s.public_key)]

/-- Serde serialization of currency-amount parameters. -/
def CurrencyAmountParams.toJson (a : CurrencyAmountParams) : Json :=
  .obj [("amount", .str a.amount), ("currency", .str a.currency)]

/-- Serde serialization of currency-price parameters. -/
def CurrencyPriceParams.toJson (p : CurrencyPriceParams) : Json :=
  .obj [("currency_a", .str p.currency_a), ("currency_b", .str p.currency_b),
        ("amount", .str p.amount)]

/-- Serde serialization of `PlaceLimitOrderParams`, fields in declaration
order with their snake_case names. -/
def place_limit_order.PlaceLimitOrderParams.toJson
    (p : place_limit_order.PlaceLimitOrderParams) : Json :=
  .obj [("client_order_id", Json.ofOptionStr p.client_order_id),
        ("allow_taker", Json.ofOptionBool p.allow_taker),
        ("buy_or_sell", p.buy_or_sell.toJson),
        ("cancel_at", Json.ofOptionStr p.cancel_at),
        ("cancellation_policy", p.cancellation_policy.toJson),
        ("market_name", .str p.market_name),
        ("amount", p.amount.toJson),
        ("nonce_from", .num p.nonce_from),
        ("nonce_to", .num p.nonce_to),
        ("nonce_order", .num p.nonce_order),
        ("timestamp", .num p.timestamp),
        ("limit_price", p.limit_price.toJson),
        ("blockchain_signatures", .arr (p.blockchain_signatures.map Json.ofOptionBcSig))]

/-- Serde serialization of `place_limit_order::Variables`. -/
def place_limit_order.Variables.toJson (v : place_limit_order.Variables) : Json :=
  .obj [("payload", v.payload.toJson),
        ("affiliate", Json.ofOptionStr v.affiliate),
        ("signature", v.signature.toJson)]

/-- Serde serialization of `PlaceMarketOrderParams`, fields in declaration
order with their snake_case names. -/
def place_market_order.PlaceMarketOrderParams.toJson
    (p : place_market_order.PlaceMarketOrderParams) : Json :=
  .obj [("buy_or_sell", p.buy_or_sell.toJson),
        ("client_order_id", Json.ofOptionStr p.client_order_id),
        ("market_name", .str p.market_name),
        ("amount", p.amount.toJson),
        ("nonce_from", Json.ofOptionInt p.nonce_from),
        ("nonce_to", Json.ofOptionInt p.nonce_to),
        ("nonce_order", .num p.nonce_order),
        ("timestamp", .num p.timestamp),
        ("blockchain_signatures", .arr (p.blockchain_signatures.map Json.ofOptionBcSig))]

/-- Serde serialization of `place_market_order::Variables`. -/
def place_market_order.Variables.toJson (v : place_market_order.Variables) : Json :=
  .obj [("payload", v.payload.toJson),
        ("affiliate", Json.ofOptionStr v.affiliate),
        ("signature", v.signature.toJson)]

/-- `limit_order_canonical_string`: serialize the whole variables value and
canonicalize it, excluding the `blockchain_signatures` field.  The Rust
function returns `Result` only because the serde round trip may fail; the
model's serializer is total. -/
def limit_order_canonical_string (vars : place_limit_order.Variables) : String :=
  general_canonical_string "place_limit_order" vars.toJson
    ["blockchain_signatures"]

/-- `market_order_canonical_string`: serialize the whole variables value and
canonicalize it, excluding the `blockchain_signatures` field. -/
def market_order_canonical_string (vars : place_market_order.Variables) : String :=
  general_canonical_string "place_market_order" vars.toJson
    ["blockchain_signatures"]

/-- `PayloadNonces`: the `(nonce_from, nonce_to, order_nonce)` triple. -/
structure PayloadNonces where
  nonce_from : Nonce
  nonce_to : Nonce
  order_nonce : Nonce
deriving DecidableEq

/-- Modelled from the spec: the per-sub-order limit-order builder
(`LimitOrderConstructor`), holding the resolved market, amounts, rate and
policy fields used by `request.rs`. -/
structure LimitOrderConstructor where
  client_order_id : Option String
  allow_taker : Option Bool
  buy_or_sell : BuyOrSell
  cancellation_policy : OrderCancellationPolicy
  market : Market
  me_amount : AssetAmount
  me_rate : OrderRate
  source : AssetAmount
  destination : AssetofPrecision

/-- `LimitOrdersConstructor`: the batch of per-sub-order builders. -/
structure LimitOrdersConstructor where
  constructors : List LimitOrderConstructor

/-- `MarketOrderConstructor`: the market-order builder produced by
`MarketOrdersRequest::make_constructor`. -/
structure MarketOrderConstructor where
  client_order_id : Option String
  me_amount : AssetAmount
  market : Market
  source : AssetAmount
  destination : AssetofPrecision

/-- Modelled from the spec: a market-order user request, with the fields
read by `MarketOrdersRequest::make_constructor`. -/
structure MarketOrdersRequest where
  market : String
  amount : Int
  client_order_id : Option String

/-- Rust `str::split(char)` (as used on the market name), embedded as
structural recursion over the character list: split on the separator,
keeping empty pieces. -/
def rustSplitAux (sep : Char) : List Char → List Char → List String
  | [], acc => [String.mk acc.reverse]
  | c :: cs, acc =>
    if c = sep then String.mk acc.reverse :: rustSplitAux sep cs []
    else rustSplitAux sep cs (c :: acc)

/-- Rust `self.market.split(sep)` collected to a list. -/
def rustSplit (sep : Char) (s : String) : List String :=
  rustSplitAux sep s.data []

/-- `MarketOrdersRequest::make_constructor`: resolve the market name
(directly, then reversed and inverted), apply the amount to `asset_a`, and
build the constructor. -/
def MarketOrdersRequest.make_constructor (self : MarketOrdersRequest)
    (state : State) : Except ProtocolError MarketOrderConstructor := do
  let market ← match state.get_market self.market with
    | .ok market => pure market
    | .error _ =>
      let reverse_market := (rustSplit '_' self.market).reverse
      let reverse_market := "_".intercalate reverse_market
      match state.get_market reverse_market with
      | .ok market => pure market.invert
      | .error err => .error err
  let source ← market.asset_a.with_amount self.amount
  let destination := market.asset_b
  .ok { client_order_id := self.client_order_id
        me_amount := source
        market := market
        source := source
        destination := destination }

/-- `map_crosschain`: if the asset is on another chain, convert the nonce
into a crosschain nonce. -/
def map_crosschain (nonce : Nonce) (chain : Blockchain) (asset : Asset) : Nonce :=
  if asset.blockchain = chain then nonce else Nonce.Crosschain

/-- `MarketOrderConstructor::make_fill_order`: build the chain-specific
fill order; the min/max/fee rates are protocol sentinels and the amount is
denominated in the source asset. -/
def MarketOrderConstructor.make_fill_order (self : MarketOrderConstructor)
    (chain : Blockchain) (pub_key : PublicKey) (nonces : PayloadNonces) :
    Except ProtocolError FillOrder :=
  let min_order := Rate.MinOrderRate
  let max_order := Rate.MaxOrderRate
  let amount := self.source.amount
  let fee_rate := Rate.MinOrderRate
  match chain with
  | .Ethereum => do
    let address ← pub_key.eth_address
    .ok (FillOrder.Ethereum
      ⟨address, self.source.asset, self.destination.asset,
       map_crosschain nonces.nonce_from chain self.source.asset,
       map_crosschain nonces.nonce_to chain self.destination.asset,
       amount, min_order, max_order, fee_rate, nonces.order_nonce⟩)
  | .Bitcoin =>
    .ok (FillOrder.Bitcoin
      ⟨map_crosschain nonces.nonce_from chain self.source.asset,
       map_crosschain nonces.nonce_to chain self.destination.asset⟩)
  | .NEO => do
    let neo_pub_key ← pub_key.neo_public_key
    .ok (FillOrder.NEO
      ⟨neo_pub_key, self.source.asset, self.destination.asset,
       map_crosschain nonces.nonce_from chain self.source.asset,
       map_crosschain nonces.nonce_to chain self.destination.asset,
       amount, min_order, max_order, fee_rate, nonces.order_nonce⟩)

/-- The inner loop of `MarketOrderConstructor::blockchain_signatures`: one
signed fill order pushed per nonce combination, in order. -/
def MarketOrderConstructor.sign_nonce_groups (self : MarketOrderConstructor)
    (signer : Signer) (blockchain : Blockchain) (pub_key : PublicKey) :
    List PayloadNonces → Except ProtocolError (List (Option BlockchainSignature))
  | [] => .ok []
  | nonce_group :: rest => do
    let fill_order ← self.make_fill_order blockchain pub_key nonce_group
    let sig ← fill_order.to_market_blockchain_signature signer
    let tail ← self.sign_nonce_groups signer blockchain pub_key rest
    .ok (some sig :: tail)

/-- The outer loop of `MarketOrderConstructor::blockchain_signatures`: per
blockchain, derive the child public key and push one signed fill order per
nonce combination. -/
def MarketOrderConstructor.blockchain_signatures_go (self : MarketOrderConstructor)
    (signer : Signer) (nonces : List PayloadNonces) :
    List Blockchain → Except ProtocolError (List (Option BlockchainSignature))
  | [] => .ok []
  | blockchain :: rest => do
    let pub_key ← signer.child_public_key blockchain
    let here ← self.sign_nonce_groups signer blockchain pub_key nonces
    let there ← self.blockchain_signatures_go signer nonces rest
    .ok (here ++ there)

/-- `MarketOrderConstructor::blockchain_signatures`. -/
def MarketOrderConstructor.blockchain_signatures (self : MarketOrderConstructor)
    (signer : Signer) (nonces : List PayloadNonces) :
    Except ProtocolError (List (Option BlockchainSignature)) :=
  self.blockchain_signatures_go signer nonces self.market.blockchains

/-- `MarketOrderConstructor::graphql_request`: the market-order variables
with everything filled in besides blockchain payloads and signatures. -/
def MarketOrderConstructor.graphql_request (self : MarketOrderConstructor)
    (current_time : Int) (affiliate : Option String) :
    Except ProtocolError place_market_order.Variables := do
  let amount ← self.me_amount.try_into_params
  .ok { payload := { buy_or_sell := BuyOrSell.Sell
                     client_order_id := self.client_order_id
                     market_name := self.market.market_name
                     amount := amount
                     nonce_from := some 0
                     nonce_to := some 0
                     nonce_order := (u32cast current_time : Int)
                     timestamp := current_time
                     blockchain_signatures := [] }
        affiliate := affiliate
        signature := RequestPayloadSignature.empty }

/-- `MarketOrderConstructor::signed_graphql_request`: attach the blockchain
signatures, sign the canonical string, attach the overall signature.  (The
Rust code finally wraps the variables in the static `PlaceMarketOrder`
query body; the model returns the variables.) -/
def MarketOrderConstructor.signed_graphql_request (self : MarketOrderConstructor)
    (nonces : List PayloadNonces) (current_time : Int)
    (affiliate : Option String) (signer : Signer) :
    Except ProtocolError place_market_order.Variables := do
  let request ← self.graphql_request current_time affiliate
  let bc_sigs ← self.blockchain_signatures signer nonces
  let request := { request with
    payload := { request.payload with blockchain_signatures := bc_sigs } }
  let canonical_string := market_order_canonical_string request
  let sig := signer.sign_canonical_string canonical_string
  let request := { request with signature := sig }
  .ok request

/-- `MarketOrderConstructor::make_payload_nonces`: read the nonce pools for
the source and destination assets and build every `(from, to)` combination,
each with the order nonce derived from the current time. -/
def MarketOrderConstructor.make_payload_nonces (self : MarketOrderConstructor)
    (state : State) (current_time : Int) :
    Except ProtocolError (List PayloadNonces) := do
  let asset_nonces ← match state.asset_nonces with
    | some an => pure an
    | none => .error ⟨"Asset nonce map does not exist"⟩
  let from_name := self.market.asset_a.asset.name
  let to_name := self.market.asset_b.asset.name
  let nonce_froms ← match asset_nonces.lookup from_name with
    | some ns => pure (ns.map Nonce.Value)
    | none => .error ⟨"Asset nonce for source does not exist"⟩
  let nonce_tos ← match asset_nonces.lookup to_name with
    | some ns => pure (ns.map Nonce.Value)
    | none => .error ⟨"Asset nonce for destination a does not exist"⟩
  .ok (nonce_froms.flatMap fun nonce_from =>
    nonce_tos.map fun nonce_to =>
      { nonce_from := nonce_from, nonce_to := nonce_to,
        order_nonce := Nonce.Value (u32cast current_time) })

/-- The loop body of `LimitOrdersConstructor::graphql_request`: the
variables for sub-order `index`; the two top-level nonces are the
deprecated constants and the order nonce is the u32-truncated current time
plus the sub-order index (wrapping `i64` addition). -/
def LimitOrderConstructor.build_variable (request : LimitOrderConstructor)
    (index : Nat) (current_time : Int) (affiliate : Option String) :
    Except ProtocolError place_limit_order.Variables := do
  let cancel_at := match request.cancellation_policy with
    | .GoodTilTime time => some (toString time)
    | _ => none
  let amount ← request.me_amount.try_into_params
  let rate ← request.me_rate.to_bigdecimal
  .ok { payload := { client_order_id := request.client_order_id
                     allow_taker := request.allow_taker
                     buy_or_sell := request.buy_or_sell
                     cancel_at := cancel_at
                     cancellation_policy := request.cancellation_policy
                     market_name := request.market.market_name
                     amount := amount
                     nonce_from := 1234
                     nonce_to := 1234
                     nonce_order := i64wrap ((u32cast current_time : Int) + (index : Int))
                     timestamp := current_time
                     limit_price := { currency_a := request.market.asset_b.asset.name
                                      currency_b := request.market.asset_a.asset.name
                                      amount := toString rate }
                     blockchain_signatures := [] }
        affiliate := affiliate
        signature := RequestPayloadSignature.empty }

/-- The enumerated loop of `LimitOrdersConstructor::graphql_request`. -/
def LimitOrdersConstructor.graphql_request_go (current_time : Int)
    (affiliate : Option String) :
    List (Nat × LimitOrderConstructor) →
    Except ProtocolError (List place_limit_order.Variables)
  | [] => .ok []
  | (index, request) :: rest => do
    let v ← request.build_variable index current_time affiliate
    let tail ← LimitOrdersConstructor.graphql_request_go current_time affiliate rest
    .ok (v :: tail)

/-- `LimitOrdersConstructor::graphql_request`: one variables value per
sub-order, in input order. -/
def LimitOrdersConstructor.graphql_request (self : LimitOrdersConstructor)
    (current_time : Int) (affiliate : Option String) :
    Except ProtocolError (List place_limit_order.Variables) :=
  LimitOrdersConstructor.graphql_request_go current_time affiliate
    self.constructors.enum

/-- Modelled from the spec: `LimitOrderConstructor::make_payload_nonces` is
outside the excerpt; per the spec a limit order uses one fixed nonce
combination per sub-order: the current value of each pool, with the order
nonce derived from the supplied time.  Missing pools are fatal. -/
def LimitOrderConstructor.make_payload_nonces (self : LimitOrderConstructor)
    (state : State) (current_time : Int) :
    Except ProtocolError (List PayloadNonces) := do
  let asset_nonces ← match state.asset_nonces with
    | some an => pure an
    | none => .error ⟨"Asset nonce map does not exist"⟩
  let nonce_from ← match (asset_nonces.lookup self.market.asset_a.asset.name).bind
      List.head? with
    | some n => pure (Nonce.Value n)
    | none => .error ⟨"Asset nonce for source does not exist"⟩
  let nonce_to ← match (asset_nonces.lookup self.market.asset_b.asset.name).bind
      List.head? with
    | some n => pure (Nonce.Value n)
    | none => .error ⟨"Asset nonce for destination does not exist"⟩
  .ok [{ nonce_from := nonce_from, nonce_to := nonce_to,
         order_nonce := Nonce.Value (u32cast current_time) }]

/-- Modelled from the spec: `LimitOrderConstructor::make_fill_order` is
outside the excerpt; per the spec it mirrors the market-order derivation:
chain-specific fields, crosschain-adjusted nonces for source and
destination independently, sentinel min/max/fee rates. -/
def LimitOrderConstructor.make_fill_order (self : LimitOrderConstructor)
    (chain : Blockchain) (pub_key : PublicKey) (nonces : PayloadNonces) :
    Except ProtocolError FillOrder :=
  let min_order := Rate.MinOrderRate
  let max_order := Rate.MaxOrderRate
  let amount := self.source.amount
  let fee_rate := Rate.MinOrderRate
  match chain with
  | .Ethereum => do
    let address ← pub_key.eth_address
    .ok (FillOrder.Ethereum
      ⟨address, self.source.asset, self.destination.asset,
       map_crosschain nonces.nonce_from chain self.source.asset,
       map_crosschain nonces.nonce_to chain self.destination.asset,
       amount, min_order, max_order, fee_rate, nonces.order_nonce⟩)
  | .Bitcoin =>
    .ok (FillOrder.Bitcoin
      ⟨map_crosschain nonces.nonce_from chain self.source.asset,
       map_crosschain nonces.nonce_to chain self.destination.asset⟩)
  | .NEO => do
    let neo_pub_key ← pub_key.neo_public_key
    .ok (FillOrder.NEO
      ⟨neo_pub_key, self.source.asset, self.destination.asset,
       map_crosschain nonces.nonce_from chain self.source.asset,
       map_crosschain nonces.nonce_to chain self.destination.asset,
       amount, min_order, max_order, fee_rate, nonces.order_nonce⟩)

/-- Modelled from the spec: inner signing loop of the limit-order
`blockchain_signatures` (one signed fill order per nonce combination). -/
def LimitOrderConstructor.sign_nonce_groups (self : LimitOrderConstructor)
    (signer : Signer) (blockchain : Blockchain) (pub_key : PublicKey) :
    List PayloadNonces → Except ProtocolError (List (Option BlockchainSignature))
  | [] => .ok []
  | nonce_group :: rest => do
    let fill_order ← self.make_fill_order blockchain pub_key nonce_group
    let sig ← fill_order.to_market_blockchain_signature signer
    let tail ← self.sign_nonce_groups signer blockchain pub_key rest
    .ok (some sig :: tail)

/-- Modelled from the spec: outer loop of the limit-order
`blockchain_signatures` (multiplicative: blockchains × nonce
combinations). -/
def LimitOrderConstructor.blockchain_signatures_go (self : LimitOrderConstructor)
    (signer : Signer) (nonces : List PayloadNonces) :
    List Blockchain → Except ProtocolError (List (Option BlockchainSignature))
  | [] => .ok []
  | blockchain :: rest => do
    let pub_key ← signer.child_public_key blockchain
    let here ← self.sign_nonce_groups signer blockchain pub_key nonces
    let there ← self.blockchain_signatures_go signer nonces rest
    .ok (here ++ there)

/-- Modelled from the spec: `LimitOrderConstructor::blockchain_signatures`
(outside the excerpt): one signed fill order per blockchain the market
touches, per nonce combination. -/
def LimitOrderConstructor.blockchain_signatures (self : LimitOrderConstructor)
    (signer : Signer) (nonces : List PayloadNonces) :
    Except ProtocolError (List (Option BlockchainSignature)) :=
  self.blockchain_signatures_go signer nonces self.market.blockchains

/-- The signing loop of `LimitOrdersConstructor::signed_graphql_request`:
for sub-order `index`, resolve nonces at `current_time + index` (wrapping
`i64` addition), attach the blockchain signatures, sign the canonical
string, attach the overall signature. -/
def LimitOrdersConstructor.sign_variables_go (state : State) (current_time : Int) :
    List (Nat × (place_limit_order.Variables × LimitOrderConstructor)) →
    Except ProtocolError (List place_limit_order.Variables)
  | [] => .ok []
  | (index, var, constructor) :: rest => do
    let nonces ← constructor.make_payload_nonces state
      (i64wrap (current_time + (index : Int)))
    let signer ← state.signer
    let bc_sigs ← constructor.blockchain_signatures signer nonces
    let var := { var with
      payload := { var.payload with blockchain_signatures := bc_sigs } }
    let canonical_string := limit_order_canonical_string var
    let sig := signer.sign_canonical_string canonical_string
    let var := { var with signature := sig }
    let tail ← LimitOrdersConstructor.sign_variables_go state current_time rest
    .ok (var :: tail)

/-- The fully signed per-sub-order variables of
`LimitOrdersConstructor::signed_graphql_request`, before batch assembly. -/
def LimitOrdersConstructor.signed_variables (self : LimitOrdersConstructor)
    (current_time : Int) (affiliate : Option String) (state : State) :
    Except ProtocolError (List place_limit_order.Variables) := do
  let vars ← self.graphql_request current_time affiliate
  LimitOrdersConstructor.sign_variables_go state current_time
    ((vars.zip self.constructors).enum)

/-- `HashMap::insert` on the variable map, embedded as an association list:
replace the value when the key is present, otherwise append the entry. -/
def mapInsert (m : List (String × Json)) (k : String) (v : Json) :
    List (String × Json) :=
  if m.any (fun kv => kv.1 == k) then
    m.map (fun kv => if kv.1 == k then (k, v) else kv)
  else m ++ [(k, v)]

/-- `MultiQueryBody`: the batched wire request (variable map, query text,
operation name). -/
structure MultiQueryBody where
  query_variables : List (String × Json)
  query : String
  operation_name : String

/-- The batch-assembly loop of
`LimitOrdersConstructor::signed_graphql_request`: per sub-order, extend the
parameter declarations, the aliased calls and the variable map. -/
def LimitOrdersConstructor.assemble_go :
    List (Nat × place_limit_order.Variables) →
    List (String × Json) × String × String →
    List (String × Json) × String × String
  | [], acc => acc
  | (index, var) :: rest, (map, params, calls) =>
    let payload := "payload" ++ toString index
    let signature := "signature" ++ toString index
    let affiliate := "affiliate" ++ toString index
    let params := if index = 0 then params else params ++ ", "
    let params := params ++ "$" ++ payload ++ ": PlaceLimitOrderParams!, $" ++
      signature ++ ": Signature!, $" ++ affiliate ++ ": AffiliateDeveloperCode"
    let calls := "\n                " ++ calls ++
      "\n                response" ++ toString index ++
      ": placeLimitOrder(payload: $" ++ payload ++ ", signature: $" ++ signature ++
      ", affiliateDeveloperCode: $" ++ affiliate ++
      ") \x7b\n                    id\n                    status\n                    ordersTillSignState,\n                    buyOrSell,\n                    market \x7b\n                        name\n                    \x7d,\n                    placedAt,\n                    type\n                \x7d\n                "
    let map := mapInsert map payload var.payload.toJson
    let map := mapInsert map signature var.signature.toJson
    let map := mapInsert map affiliate (Json.ofOptionStr var.affiliate)
    LimitOrdersConstructor.assemble_go rest (map, params, calls)

/-- `LimitOrdersConstructor::signed_graphql_request`: sign every sub-order,
then assemble the one batched mutation. -/
def LimitOrdersConstructor.signed_graphql_request (self : LimitOrdersConstructor)
    (current_time : Int) (affiliate : Option String) (state : State) :
    Except ProtocolError MultiQueryBody := do
  let signed ← self.signed_variables current_time affiliate state
  let (map, params, calls) :=
    LimitOrdersConstructor.assemble_go signed.enum ([], "", "")
  .ok { query_variables := map
        operation_name := "PlaceLimitOrder"
        query := "\n                mutation PlaceLimitOrder(" ++ params ++
          ") \x7b\n                    " ++ calls ++
          "\n                \x7d\n            " }

/-- The unsigned variables record assembled by the loop body of
`LimitOrdersConstructor::graphql_request` for sub-order `index`, given the
converted amount parameters. -/
def unsignedVariable (request : LimitOrderConstructor) (index : Nat)
    (t : Int) (aff : Option String) (amountP : CurrencyAmountParams) :
    place_limit_order.Variables :=
  { payload := { client_order_id := request.client_order_id
                 allow_taker := request.allow_taker
                 buy_or_sell := request.buy_or_sell
                 cancel_at := match request.cancellation_policy with
                   | .GoodTilTime time => some (toString time)
                   | _ => none
                 cancellation_policy := request.cancellation_policy
                 market_name := request.market.market_name
                 amount := amountP
                 nonce_from := 1234
                 nonce_to := 1234
                 nonce_order := i64wrap ((u32cast t : Int) + (index : Int))
                 timestamp := t
                 limit_price := { currency_a := request.market.asset_b.asset.name
                                  currency_b := request.market.asset_a.asset.name
                                  amount := toString request.me_rate.value }
                 blockchain_signatures := [] }
    affiliate := aff
    signature := RequestPayloadSignature.empty }

/-- The fully signed form of one sub-order's variables, as produced by the
body of the signing loop: blockchain signatures attached, then the overall
signature computed over the canonical string of that state. -/
def signedForm (var0 : place_limit_order.Variables)
    (bc_sigs : List (Option BlockchainSignature)) (signer : Signer) :
    place_limit_order.Variables :=
  let var1 := { var0 with
    payload := { var0.payload with blockchain_signatures := bc_sigs } }
  { var1 with
    signature := signer.sign_canonical_string (limit_order_canonical_string var1) }

/- Concrete fixtures used by witness theorems. -/

def btcAsset : Asset := { name := "btc", blockchain := .Bitcoin }

def ethAsset : Asset := { name := "eth", blockchain := .Ethereum }

def usdcAsset : Asset := { name := "usdc", blockchain := .Ethereum }

def testPubKey : PublicKey :=
  { eth_address := .ok ⟨"0xabc"⟩, neo_public_key := .ok ⟨"neokey"⟩ }

def testSigner : Signer :=
  { sign_canonical_string := fun s => { signed_digest := "sig:" ++ s, public_key := "pk" }
    child_public_key := fun _ => .ok testPubKey
    sign_blockchain_data := fun _ => "bsig" }

def ethUsdcMarket : Market := { asset_a := ⟨ethAsset, 4⟩, asset_b := ⟨usdcAsset, 2⟩ }

def ethBtcMarket : Market := { asset_a := ⟨ethAsset, 4⟩, asset_b := ⟨btcAsset, 8⟩ }

def testState : State :=
  { markets := [("eth_usdc", ethUsdcMarket), ("eth_btc", ethBtcMarket)]
    asset_nonces := some [("eth", [10, 11]), ("usdc", [20]), ("btc", [30, 31])]
    signer_opt := some testSigner }

def testMarketConstructor : MarketOrderConstructor :=
  { client_order_id := none
    me_amount := ⟨ethAsset, 5⟩
    market := ethBtcMarket
    source := ⟨ethAsset, 5⟩
    destination := ⟨btcAsset, 8⟩ }

def c8Constructor : MarketOrderConstructor :=
  { client_order_id := none
    me_amount := ⟨ethAsset, 3⟩
    market := ethBtcMarket
    source := ⟨ethAsset, 3⟩
    destination := ⟨btcAsset, 8⟩ }

def testLimitConstructor : LimitOrderConstructor :=
  { client_order_id := some "cid"
    allow_taker := some true
    buy_or_sell := .Buy
    cancellation_policy := .GoodTilCancelled
    market := ethUsdcMarket
    me_amount := ⟨ethAsset, 5⟩
    me_rate := ⟨100⟩
    source := ⟨ethAsset, 5⟩
    destination := ⟨usdcAsset, 2⟩ }

def marketVariable7 : place_market_order.Variables :=
  { payload := { buy_or_sell := .Sell, client_order_id := none,
                 market_name := "eth_btc", amount := ⟨"5", "eth"⟩,
                 nonce_from := some 0, nonce_to := some 0,
                 nonce_order := 7, timestamp := 7, blockchain_signatures := [] }
    affiliate := none
    signature := RequestPayloadSignature.empty }

/-- The typed variable-declaration triple for sub-order `i`, as the batched
mutation header must declare it. -/
def paramDecl (i : Nat) : String :=
  "$" ++ ("payload" ++ toString i) ++ ": PlaceLimitOrderParams!, $" ++
    ("signature" ++ toString i) ++ ": Signature!, $" ++
    ("affiliate" ++ toString i) ++ ": AffiliateDeveloperCode"

/-- The indentation run the assembly loop prepends to the accumulated calls
at each step. -/
def callIndent : String := "\n                "

/-- The aliased `responseN: placeLimitOrder(...)` call for sub-order `i`,
with its selection set and trailing indentation. -/
def callAlias (i : Nat) : String :=
  "\n                response" ++ toString i ++
    ": placeLimitOrder(payload: $" ++ ("payload" ++ toString i) ++
    ", signature: $" ++ ("signature" ++ toString i) ++
    ", affiliateDeveloperCode: $" ++ ("affiliate" ++ toString i) ++
    ") \x7b\n                    id\n                    status\n                    ordersTillSignState,\n                    buyOrSell,\n                    market \x7b\n                        name\n                    \x7d,\n                    placedAt,\n                    type\n                \x7d\n                "

/-- The three variable-map entries contributed by signed sub-order `i`,
starting from index `j`. -/
def varEntriesFrom (j : Nat) (signed : List place_limit_order.Variables) :
    List (String × Json) :=
  (signed.enumFrom j).flatMap fun p =>
    [("payload" ++ toString p.1, p.2.payload.toJson),
     ("signature" ++ toString p.1, p.2.signature.toJson),
     ("affiliate" ++ toString p.1, Json.ofOptionStr p.2.affiliate)]

/-- The full variable map contributed by a signed batch. -/
def varEntries (signed : List place_limit_order.Variables) :
    List (String × Json) :=
  varEntriesFrom 0 signed

def testLimitBatch : LimitOrdersConstructor := ⟨[testLimitConstructor]⟩

/- Theorems. -/

/-- `do`-notation bind on a successful `Except` value. -/
@[simp] theorem except_bind_ok {α β ε : Type} (a : α) (f : α → Except ε β) :
    (Except.ok a >>= f) = f a := rfl

/-- `do`-notation bind on a failed `Except` value. -/
@[simp] theorem except_bind_error {α β ε : Type} (e : ε) (f : α → Except ε β) :
    ((Except.error e : Except ε α) >>= f) = Except.error e := rfl

/-- `pure` on `Except` is `Except.ok`. -/
@[simp] theorem except_pure_eq {α ε : Type} (a : α) :
    (pure a : Except ε α) = Except.ok a := rfl

/-- C10: for every Bitcoin public key value, `btc::PublicKey::to_address`
returns an error — it is unimplemented for BTC and never returns an
address. -/
theorem btc_to_address_always_fails (pk : btc.PublicKey) :
    pk.to_address = .error ⟨"This has not been implemented for BTC"⟩ :=
  rfl

/-- C2: for every asset, target chain and pooled (numeric) nonce, the
crosschain-adjusted nonce is the `Crosschain` sentinel iff the asset's
native blockchain differs from the target chain, and otherwise equals the
pooled nonce unchanged; and `make_fill_order` applies the rule
independently to the from side (source asset) and the to side (destination
asset) of the fill order. -/
theorem map_crosschain_rule (v : Nat) (chain : Blockchain) (asset : Asset)
    (n : Nonce) :
    ((map_crosschain (Nonce.Value v) chain asset = Nonce.Crosschain ↔
        asset.blockchain ≠ chain)
      ∧ (asset.blockchain = chain → map_crosschain n chain asset = n))
    ∧ ∀ (c : MarketOrderConstructor) (pk : PublicKey) (nonces : PayloadNonces)
        (fo : FillOrder),
        c.make_fill_order chain pk nonces = .ok fo →
        fo.nonce_from = map_crosschain nonces.nonce_from chain c.source.asset ∧
        fo.nonce_to = map_crosschain nonces.nonce_to chain c.destination.asset := by
  constructor
  · constructor
    · unfold map_crosschain
      by_cases h : asset.blockchain = chain <;> simp [h]
    · intro h
      simp [map_crosschain, h]
  · intro c pk nonces fo h
    cases chain with
    | Ethereum =>
      unfold MarketOrderConstructor.make_fill_order at h
      cases haddr : pk.eth_address with
      | error e => simp [haddr] at h
      | ok addr =>
        simp only [haddr, except_bind_ok, Except.ok.injEq] at h
        subst h
        exact ⟨rfl, rfl⟩
    | Bitcoin =>
      unfold MarketOrderConstructor.make_fill_order at h
      simp only [Except.ok.injEq] at h
      subst h
      exact ⟨rfl, rfl⟩
    | NEO =>
      unfold MarketOrderConstructor.make_fill_order at h
      cases hk : pk.neo_public_key with
      | error e => simp [hk] at h
      | ok k =>
        simp only [hk, except_bind_ok, Except.ok.injEq] at h
        subst h
        exact ⟨rfl, rfl⟩

/-- Witness for C2: the rule evaluated on a concrete Bitcoin fill order. -/
theorem map_crosschain_rule_witness :
    (FillOrder.Bitcoin ⟨Nonce.Crosschain, Nonce.Value 2⟩).nonce_from =
      map_crosschain (Nonce.Value 1) Blockchain.Bitcoin
        testMarketConstructor.source.asset ∧
    (FillOrder.Bitcoin ⟨Nonce.Crosschain, Nonce.Value 2⟩).nonce_to =
      map_crosschain (Nonce.Value 2) Blockchain.Bitcoin
        testMarketConstructor.destination.asset :=
  (map_crosschain_rule 1 .Bitcoin btcAsset (Nonce.Value 1)).2
    testMarketConstructor testPubKey ⟨Nonce.Value 1, Nonce.Value 2, Nonce.Value 9⟩
    (FillOrder.Bitcoin ⟨Nonce.Crosschain, Nonce.Value 2⟩) rfl

/-- `Except.map` on a success. -/
@[simp] theorem except_map_ok {α β ε : Type} (f : α → β) (a : α) :
    (Except.ok a : Except ε α).map f = .ok (f a) := rfl

/-- `Except.map` on a failure. -/
@[simp] theorem except_map_error {α β ε : Type} (f : α → β) (e : ε) :
    (Except.error e : Except ε α).map f = .error e := rfl

/-- The modelled `get_market` only ever fails with `UnknownMarket`. -/
theorem get_market_error_eq (st : State) (name : String) (e : ProtocolError)
    (h : st.get_market name = .error e) : e = ⟨"UnknownMarket"⟩ := by
  unfold State.get_market at h
  cases hl : st.markets.lookup name <;> simp [hl] at h
  exact h.symm

/-- A successful `with_amount` yields exactly the asset with the requested
amount. -/
theorem with_amount_ok (a : AssetofPrecision) (amt : Int) (r : AssetAmount)
    (h : a.with_amount amt = .ok r) : r = { asset := a.asset, amount := amt } := by
  unfold AssetofPrecision.with_amount at h
  by_cases hnn : (0 : Int) ≤ amt
  · simp only [hnn, if_pos, Except.ok.injEq] at h
    exact h.symm
  · simp [hnn] at h

/-- Case characterization of `MarketOrdersRequest::make_constructor`:
direct resolution, reversed-and-inverted resolution, or failure with the
second lookup's error. -/
theorem make_constructor_char (req : MarketOrdersRequest) (st : State) :
    (∀ m, st.get_market req.market = .ok m →
      req.make_constructor st =
        (m.asset_a.with_amount req.amount).map fun source =>
          { client_order_id := req.client_order_id, me_amount := source,
            market := m, source := source, destination := m.asset_b })
    ∧ (∀ e m, st.get_market req.market = .error e →
        st.get_market ("_".intercalate (rustSplit '_' req.market).reverse) = .ok m →
        req.make_constructor st =
          (m.invert.asset_a.with_amount req.amount).map fun source =>
            { client_order_id := req.client_order_id, me_amount := source,
              market := m.invert, source := source,
              destination := m.invert.asset_b })
    ∧ (∀ e e', st.get_market req.market = .error e →
        st.get_market ("_".intercalate (rustSplit '_' req.market).reverse) =
          .error e' →
        req.make_constructor st = .error e') := by
  refine ⟨?_, ?_, ?_⟩
  · intro m h
    simp only [MarketOrdersRequest.make_constructor, h, except_pure_eq,
      except_bind_ok]
    cases hs : m.asset_a.with_amount req.amount <;> simp [hs]
  · intro e m h h2
    simp only [MarketOrdersRequest.make_constructor, h, h2, except_pure_eq,
      except_bind_ok]
    cases hs : m.invert.asset_a.with_amount req.amount <;> simp [hs]
  · intro e e' h h2
    simp only [MarketOrdersRequest.make_constructor, h, h2, except_pure_eq,
      except_bind_ok, except_bind_error]

/-- C3: market resolution looks the name up directly; exactly on failure it
splits on the pair separator, reverses the asset tokens, rejoins and looks
up again, returning that market's inverted form (sides swapped); if neither
direction resolves, the operation fails with the `UnknownMarket` error and
no constructor is produced. -/
theorem market_resolution (req : MarketOrdersRequest) (st : State) :
    (∀ m, st.get_market req.market = .ok m →
      req.make_constructor st =
        (m.asset_a.with_amount req.amount).map fun source =>
          { client_order_id := req.client_order_id, me_amount := source,
            market := m, source := source, destination := m.asset_b })
    ∧ (∀ e m, st.get_market req.market = .error e →
        st.get_market ("_".intercalate (rustSplit '_' req.market).reverse) = .ok m →
        req.make_constructor st =
          (m.invert.asset_a.with_amount req.amount).map fun source =>
            { client_order_id := req.client_order_id, me_amount := source,
              market := m.invert, source := source,
              destination := m.invert.asset_b })
    ∧ (∀ e e', st.get_market req.market = .error e →
        st.get_market ("_".intercalate (rustSplit '_' req.market).reverse) =
          .error e' →
        req.make_constructor st = .error e' ∧ e' = ⟨"UnknownMarket"⟩) := by
  obtain ⟨h1, h2, h3⟩ := make_constructor_char req st
  exact ⟨h1, h2, fun e e' he he' =>
    ⟨h3 e e' he he', get_market_error_eq _ _ _ he'⟩⟩

/-- Witness for C3: resolving the reversed name `"btc_eth"` against a
catalog containing only direct `"eth_btc"` yields the inverted market. -/
theorem market_resolution_witness :
    MarketOrdersRequest.make_constructor
        { market := "btc_eth", amount := 3, client_order_id := none } testState =
      ((ethBtcMarket.invert.asset_a.with_amount 3).map fun source =>
        { client_order_id := none, me_amount := source,
          market := ethBtcMarket.invert, source := source,
          destination := ethBtcMarket.invert.asset_b }) :=
  (market_resolution
      { market := "btc_eth", amount := 3, client_order_id := none }
      testState).2.1 ⟨"UnknownMarket"⟩ ethBtcMarket rfl rfl

/-- C8: the market-order payload is independent of any requested trade
direction: `buy_or_sell` is always the constant `Sell`, the source is
always the resolved market's `asset_a` carrying the requested amount, and
the destination is always the market's `asset_b`. -/
theorem market_payload_direction_independent :
    (∀ (c : MarketOrderConstructor) (t : Int) (aff : Option String) v,
      c.graphql_request t aff = .ok v → v.payload.buy_or_sell = BuyOrSell.Sell)
    ∧ (∀ (req : MarketOrdersRequest) (st : State) c,
        req.make_constructor st = .ok c →
        c.source.asset = c.market.asset_a.asset ∧
        c.source.amount = req.amount ∧
        c.destination = c.market.asset_b) := by
  constructor
  · intro c t aff v h
    unfold MarketOrderConstructor.graphql_request at h
    cases ham : c.me_amount.try_into_params with
    | error e => simp [ham] at h
    | ok amountP =>
      simp only [ham, except_bind_ok, Except.ok.injEq] at h
      subst h
      rfl
  · intro req st c h
    obtain ⟨hc1, hc2, hc3⟩ := make_constructor_char req st
    cases hm : st.get_market req.market with
    | ok m =>
      rw [hc1 m hm] at h
      cases hs : m.asset_a.with_amount req.amount with
      | error e => rw [hs] at h; simp at h
      | ok source =>
        rw [hs, except_map_ok, Except.ok.injEq] at h
        subst h
        have hsrc := with_amount_ok _ _ _ hs
        subst hsrc
        exact ⟨rfl, rfl, rfl⟩
    | error em =>
      cases hm2 : st.get_market
          ("_".intercalate (rustSplit '_' req.market).reverse) with
      | ok m =>
        rw [hc2 em m hm hm2] at h
        cases hs : m.invert.asset_a.with_amount req.amount with
        | error e => rw [hs] at h; simp at h
        | ok source =>
          rw [hs, except_map_ok, Except.ok.injEq] at h
          subst h
          have hsrc := with_amount_ok _ _ _ hs
          subst hsrc
          exact ⟨rfl, rfl, rfl⟩
      | error e2 =>
        rw [hc3 em e2 hm hm2] at h
        exact absurd h (by simp)

/-- Witness for C8: the concrete `eth_btc` market-order constructor. -/
theorem market_payload_direction_independent_witness :
    c8Constructor.source.asset = c8Constructor.market.asset_a.asset ∧
    c8Constructor.source.amount = 3 ∧
    c8Constructor.destination = c8Constructor.market.asset_b :=
  market_payload_direction_independent.2
    { market := "eth_btc", amount := 3, client_order_id := none } testState
    c8Constructor rfl

/-- The inner market-order signing loop: one entry per nonce combination,
in order, each the signature of the fill order for that combination. -/
theorem sign_nonce_groups_spec (c : MarketOrderConstructor) (signer : Signer)
    (b : Blockchain) (pk : PublicKey) :
    ∀ (l : List PayloadNonces) out,
      c.sign_nonce_groups signer b pk l = .ok out →
      out.length = l.length ∧
      ∀ j (hj : j < l.length), ∃ (hj2 : j < out.length) (fo : FillOrder),
        c.make_fill_order b pk (l.get ⟨j, hj⟩) = .ok fo ∧
        out.get ⟨j, hj2⟩ = some { signature := signer.sign_blockchain_data fo } := by
  intro l
  induction l with
  | nil =>
    intro out h
    unfold MarketOrderConstructor.sign_nonce_groups at h
    simp only [Except.ok.injEq] at h
    subst h
    exact ⟨rfl, fun j hj => absurd hj (Nat.not_lt_zero j)⟩
  | cons hd tl ih =>
    intro out h
    unfold MarketOrderConstructor.sign_nonce_groups at h
    cases hf : c.make_fill_order b pk hd with
    | error e => simp [hf] at h
    | ok fo =>
      cases htl : c.sign_nonce_groups signer b pk tl with
      | error e => simp [hf, htl, FillOrder.to_market_blockchain_signature] at h
      | ok out0 =>
        simp only [hf, htl, FillOrder.to_market_blockchain_signature,
          except_bind_ok, Except.ok.injEq] at h
        subst h
        obtain ⟨hlen, hget⟩ := ih out0 htl
        refine ⟨by simp [hlen], ?_⟩
        intro j hj
        cases j with
        | zero => exact ⟨Nat.succ_pos _, fo, hf, rfl⟩
        | succ j =>
          obtain ⟨hj2, fo', hmk, hout⟩ := hget j (Nat.lt_of_succ_lt_succ hj)
          exact ⟨Nat.succ_lt_succ hj2, fo', hmk, hout⟩

/-- The outer market-order signing loop: blocks of `|nonces|` entries, one
block per blockchain, concatenated in order. -/
theorem blockchain_signatures_go_spec (c : MarketOrderConstructor)
    (signer : Signer) (nonces : List PayloadNonces) :
    ∀ (bs : List Blockchain) out,
      c.blockchain_signatures_go signer nonces bs = .ok out →
      out.length = bs.length * nonces.length ∧
      ∀ i (hi : i < bs.length) j (hj : j < nonces.length),
        ∃ (hidx : i * nonces.length + j < out.length) (pk : PublicKey) (fo : FillOrder),
          signer.child_public_key (bs.get ⟨i, hi⟩) = .ok pk ∧
          c.make_fill_order (bs.get ⟨i, hi⟩) pk (nonces.get ⟨j, hj⟩) = .ok fo ∧
          out.get ⟨i * nonces.length + j, hidx⟩ =
            some { signature := signer.sign_blockchain_data fo } := by
  intro bs
  induction bs with
  | nil =>
    intro out h
    unfold MarketOrderConstructor.blockchain_signatures_go at h
    simp only [Except.ok.injEq] at h
    subst h
    exact ⟨by simp, fun i hi => absurd hi (Nat.not_lt_zero i)⟩
  | cons b rest ih =>
    intro out h
    unfold MarketOrderConstructor.blockchain_signatures_go at h
    cases hpk : signer.child_public_key b with
    | error e => simp [hpk] at h
    | ok pk =>
      cases hhere : c.sign_nonce_groups signer b pk nonces with
      | error e => simp [hpk, hhere] at h
      | ok here =>
        cases hthere : c.blockchain_signatures_go signer nonces rest with
        | error e => simp [hpk, hhere, hthere] at h
        | ok there =>
          simp only [hpk, hhere, hthere, except_bind_ok, Except.ok.injEq] at h
          subst h
          obtain ⟨hhl, hhget⟩ := sign_nonce_groups_spec c signer b pk nonces here hhere
          obtain ⟨htl, htget⟩ := ih there hthere
          have hlen : (here ++ there).length = (b :: rest).length * nonces.length := by
            simp [hhl, htl, Nat.succ_mul, Nat.add_comm]
          refine ⟨hlen, ?_⟩
          intro i hi j hj
          cases i with
          | zero =>
            obtain ⟨hj2, fo, hmk, hout⟩ := hhget j hj
            have hidx : 0 * nonces.length + j < (here ++ there).length := by
              simp only [List.length_append, hhl]
              omega
            refine ⟨hidx, pk, fo, hpk, hmk, ?_⟩
            simp only [Nat.zero_mul, Nat.zero_add, List.get_eq_getElem] at hout ⊢
            rw [List.getElem_append_left hj2]
            exact hout
          | succ i =>
            have hi' : i < rest.length := Nat.lt_of_succ_lt_succ hi
            obtain ⟨hidx0, pk', fo, hpk', hmk, hout⟩ := htget i hi' j hj
            have hidx : (i + 1) * nonces.length + j < (here ++ there).length := by
              simp only [List.length_append, hhl, htl] at hidx0 ⊢
              have : (i + 1) * nonces.length + j =
                  nonces.length + (i * nonces.length + j) := by ring
              omega
            refine ⟨hidx, pk', fo, hpk', hmk, ?_⟩
            have harith : (i + 1) * nonces.length + j =
                here.length + (i * nonces.length + j) := by
              rw [hhl, Nat.succ_mul]; omega
            simp only [List.get_eq_getElem] at hout ⊢
            simp only [harith]
            rw [List.getElem_append_right (Nat.le_add_right _ _)]
            simp only [Nat.add_sub_cancel_left]
            exact hout

/-- C5: `MarketOrderConstructor::blockchain_signatures` produces exactly
one signed fill order per (blockchain, nonce-combination) pair: the list
has length `|blockchains| × |nonce combinations|`, entry `i·|K|+j` is the
signature of the fill order for blockchain `i` and combination `j`, and a
market whose two assets settle on different chains spans exactly two
blockchains. -/
theorem blockchain_signatures_multiplicative (c : MarketOrderConstructor)
    (signer : Signer) (nonces : List PayloadNonces)
    (out : List (Option BlockchainSignature))
    (h : c.blockchain_signatures signer nonces = .ok out) :
    out.length = c.market.blockchains.length * nonces.length ∧
    (∀ i (hi : i < c.market.blockchains.length) j (hj : j < nonces.length),
      ∃ (hidx : i * nonces.length + j < out.length) (pk : PublicKey) (fo : FillOrder),
        signer.child_public_key (c.market.blockchains.get ⟨i, hi⟩) = .ok pk ∧
        c.make_fill_order (c.market.blockchains.get ⟨i, hi⟩) pk
          (nonces.get ⟨j, hj⟩) = .ok fo ∧
        out.get ⟨i * nonces.length + j, hidx⟩ =
          some { signature := signer.sign_blockchain_data fo }) ∧
    (c.market.asset_a.asset.blockchain ≠ c.market.asset_b.asset.blockchain →
      c.market.blockchains.length = 2) := by
  obtain ⟨h1, h2⟩ := blockchain_signatures_go_spec c signer nonces
    c.market.blockchains out h
  refine ⟨h1, h2, ?_⟩
  intro hne
  unfold Market.blockchains
  simp [hne]

/-- Witness for C5: the two-chain `eth_btc` market with two nonce
combinations yields four blockchain signatures. -/
theorem blockchain_signatures_multiplicative_witness :
    ([some ⟨"bsig"⟩, some ⟨"bsig"⟩, some ⟨"bsig"⟩, some ⟨"bsig"⟩] :
        List (Option BlockchainSignature)).length =
      testMarketConstructor.market.blockchains.length *
        ([⟨Nonce.Value 1, Nonce.Value 2, Nonce.Value 3⟩,
          ⟨Nonce.Value 4, Nonce.Value 5, Nonce.Value 3⟩] :
            List PayloadNonces).length :=
  (blockchain_signatures_multiplicative testMarketConstructor testSigner
    [⟨Nonce.Value 1, Nonce.Value 2, Nonce.Value 3⟩,
     ⟨Nonce.Value 4, Nonce.Value 5, Nonce.Value 3⟩]
    [some ⟨"bsig"⟩, some ⟨"bsig"⟩, some ⟨"bsig"⟩, some ⟨"bsig"⟩] rfl).1

/-- Length of the nonce cross product. -/
theorem nonce_product_length (F T : List Nat) (ct : Nat) :
    ((F.map Nonce.Value).flatMap fun nonce_from =>
        (T.map Nonce.Value).map fun nonce_to =>
          ({ nonce_from := nonce_from, nonce_to := nonce_to,
             order_nonce := Nonce.Value ct } : PayloadNonces)).length =
      F.length * T.length := by
  induction F with
  | nil => simp
  | cons f0 F ih =>
    simp only [List.map_cons, List.flatMap_cons, List.length_append,
      List.length_map, ih, List.length_cons, Nat.succ_mul]
    omega

/-- Every element of the nonce cross product carries the derived order
nonce. -/
theorem nonce_product_order_nonce (F T : List Nat) (ct : Nat) :
    ∀ p ∈ ((F.map Nonce.Value).flatMap fun nonce_from =>
        (T.map Nonce.Value).map fun nonce_to =>
          ({ nonce_from := nonce_from, nonce_to := nonce_to,
             order_nonce := Nonce.Value ct } : PayloadNonces)),
      p.order_nonce = Nonce.Value ct := by
  intro p hp
  simp only [List.mem_flatMap, List.mem_map] at hp
  obtain ⟨nf, _, p0, ⟨nt, _, rfl⟩⟩ := hp
  rfl

/-- Count of one pair inside the inner map of the nonce cross product. -/
theorem nonce_product_count_inner (T : List Nat) (f0 f tv ct : Nat) :
    ((T.map Nonce.Value).map fun nonce_to =>
        ({ nonce_from := Nonce.Value f0, nonce_to := nonce_to,
           order_nonce := Nonce.Value ct } : PayloadNonces)).count
      ⟨Nonce.Value f, Nonce.Value tv, Nonce.Value ct⟩ =
      if f0 = f then T.count tv else 0 := by
  induction T with
  | nil => simp
  | cons hd tl ih =>
    simp only [List.map_cons, List.count_cons, ih]
    by_cases hf : f0 = f
    · subst hf
      by_cases ht : hd = tv
      · subst ht
        simp [List.count_cons]
      · simp [List.count_cons, ht, Ne.symm ht]
    · simp [hf, List.count_cons]

/-- Count of one pair in the nonce cross product: the product of the two
pool counts. -/
theorem nonce_product_count (F T : List Nat) (ct f tv : Nat) :
    ((F.map Nonce.Value).flatMap fun nonce_from =>
        (T.map Nonce.Value).map fun nonce_to =>
          ({ nonce_from := nonce_from, nonce_to := nonce_to,
             order_nonce := Nonce.Value ct } : PayloadNonces)).count
      ⟨Nonce.Value f, Nonce.Value tv, Nonce.Value ct⟩ =
      F.count f * T.count tv := by
  induction F with
  | nil => simp
  | cons f0 F ih =>
    simp only [List.map_cons, List.flatMap_cons, List.count_append, ih,
      nonce_product_count_inner, List.count_cons]
    by_cases hf : f0 = f
    · subst hf
      simp [Nat.succ_mul, Nat.add_mul, Nat.add_comm]
    · simp [hf, Ne.symm hf]

/-- C6: when both nonce pools are registered, `make_payload_nonces` returns
the full cross product — length `|F| × |T|`, every combination carrying the
order nonce derived from the current time, each `(from, to)` pair appearing
`count_F × count_T` times (hence exactly once for duplicate-free pools) —
and when the nonce map or either pool is missing it fails instead of
returning a partial list. -/
theorem make_payload_nonces_product (c : MarketOrderConstructor) (st : State)
    (t : Int) :
    (∀ pools F T,
      st.asset_nonces = some pools →
      pools.lookup c.market.asset_a.asset.name = some F →
      pools.lookup c.market.asset_b.asset.name = some T →
      ∃ out, c.make_payload_nonces st t = .ok out ∧
        out.length = F.length * T.length ∧
        (∀ p ∈ out, p.order_nonce = Nonce.Value (u32cast t)) ∧
        (∀ f tv, out.count
            ⟨Nonce.Value f, Nonce.Value tv, Nonce.Value (u32cast t)⟩ =
          F.count f * T.count tv) ∧
        (F.Nodup → T.Nodup → ∀ f ∈ F, ∀ tv ∈ T,
          out.count ⟨Nonce.Value f, Nonce.Value tv, Nonce.Value (u32cast t)⟩ = 1))
    ∧ (st.asset_nonces = none → ∃ e, c.make_payload_nonces st t = .error e)
    ∧ (∀ pools, st.asset_nonces = some pools →
        pools.lookup c.market.asset_a.asset.name = none →
        ∃ e, c.make_payload_nonces st t = .error e)
    ∧ (∀ pools F, st.asset_nonces = some pools →
        pools.lookup c.market.asset_a.asset.name = some F →
        pools.lookup c.market.asset_b.asset.name = none →
        ∃ e, c.make_payload_nonces st t = .error e) := by
  refine ⟨?_, ?_, ?_, ?_⟩
  · intro pools F T hp hF hT
    refine ⟨(F.map Nonce.Value).flatMap fun nonce_from =>
        (T.map Nonce.Value).map fun nonce_to =>
          ({ nonce_from := nonce_from, nonce_to := nonce_to,
             order_nonce := Nonce.Value (u32cast t) } : PayloadNonces),
      ?_, ?_, ?_, ?_, ?_⟩
    · unfold MarketOrderConstructor.make_payload_nonces
      simp only [hp, hF, hT, except_pure_eq, except_bind_ok]
    · exact nonce_product_length F T (u32cast t)
    · exact nonce_product_order_nonce F T (u32cast t)
    · intro f tv
      exact nonce_product_count F T (u32cast t) f tv
    · intro hFn hTn f hf tv htv
      rw [nonce_product_count F T (u32cast t) f tv,
        List.count_eq_one_of_mem hFn hf, List.count_eq_one_of_mem hTn htv]
  · intro hp
    refine ⟨⟨"Asset nonce map does not exist"⟩, ?_⟩
    unfold MarketOrderConstructor.make_payload_nonces
    simp only [hp]
    rfl
  · intro pools hp hF
    refine ⟨⟨"Asset nonce for source does not exist"⟩, ?_⟩
    unfold MarketOrderConstructor.make_payload_nonces
    simp only [hp, hF, except_pure_eq, except_bind_ok]
    rfl
  · intro pools F hp hF hT
    refine ⟨⟨"Asset nonce for destination a does not exist"⟩, ?_⟩
    unfold MarketOrderConstructor.make_payload_nonces
    simp only [hp, hF, hT, except_pure_eq, except_bind_ok]
    rfl

/-- Witness for C6: `eth_btc` with pools of size two each yields the four
combinations, each exactly once. -/
theorem make_payload_nonces_product_witness :
    ∃ out, testMarketConstructor.make_payload_nonces testState 7 = .ok out ∧
      out.length = ([10, 11] : List Nat).length * ([30, 31] : List Nat).length ∧
      (∀ p ∈ out, p.order_nonce = Nonce.Value (u32cast 7)) ∧
      (∀ f tv, out.count
          ⟨Nonce.Value f, Nonce.Value tv, Nonce.Value (u32cast 7)⟩ =
        ([10, 11] : List Nat).count f * ([30, 31] : List Nat).count tv) ∧
      (([10, 11] : List Nat).Nodup → ([30, 31] : List Nat).Nodup →
        ∀ f ∈ ([10, 11] : List Nat), ∀ tv ∈ ([30, 31] : List Nat),
          out.count ⟨Nonce.Value f, Nonce.Value tv, Nonce.Value (u32cast 7)⟩ = 1) :=
  (make_payload_nonces_product testMarketConstructor testState 7).1
    [("eth", [10, 11]), ("usdc", [20]), ("btc", [30, 31])] [10, 11] [30, 31]
    rfl rfl rfl

/-- Characterization of one sub-order's unsigned variables:
`build_variable` succeeds exactly when the amount conversion does, and then
every field is the one assigned by the loop body of `graphql_request`. -/
theorem build_variable_eq (request : LimitOrderConstructor) (index : Nat)
    (t : Int) (aff : Option String) (v : place_limit_order.Variables)
    (h : request.build_variable index t aff = .ok v) :
    ∃ amountP, request.me_amount.try_into_params = .ok amountP ∧
      v = unsignedVariable request index t aff amountP := by
  unfold LimitOrderConstructor.build_variable at h
  cases ham : request.me_amount.try_into_params with
  | error e => simp [ham] at h
  | ok amountP =>
    refine ⟨amountP, rfl, ?_⟩
    simp only [ham, OrderRate.to_bigdecimal, except_bind_ok, Except.ok.injEq] at h
    rw [← h]
    rfl

/-- The enumerated `graphql_request` loop: success yields one variables
value per input pair, positionally, each built by `build_variable`. -/
theorem graphql_request_go_spec (t : Int) (aff : Option String) :
    ∀ (l : List (Nat × LimitOrderConstructor)) out,
      LimitOrdersConstructor.graphql_request_go t aff l = .ok out →
      out.length = l.length ∧
      ∀ k (hk : k < l.length),
        ∃ hk2 : k < out.length,
          (l.get ⟨k, hk⟩).2.build_variable (l.get ⟨k, hk⟩).1 t aff =
            .ok (out.get ⟨k, hk2⟩) := by
  intro l
  induction l with
  | nil =>
    intro out h
    unfold LimitOrdersConstructor.graphql_request_go at h
    simp only [Except.ok.injEq] at h
    subst h
    exact ⟨rfl, fun k hk => absurd hk (Nat.not_lt_zero k)⟩
  | cons hd tl ih =>
    intro out h
    obtain ⟨index, request⟩ := hd
    unfold LimitOrdersConstructor.graphql_request_go at h
    cases hb : request.build_variable index t aff with
    | error e => simp [hb] at h
    | ok v0 =>
      cases htl : LimitOrdersConstructor.graphql_request_go t aff tl with
      | error e => simp [hb, htl] at h
      | ok out0 =>
        simp only [hb, htl, except_bind_ok, Except.ok.injEq] at h
        subst h
        obtain ⟨hlen, hget⟩ := ih out0 htl
        refine ⟨by simp [hlen], ?_⟩
        intro k hk
        cases k with
        | zero => exact ⟨Nat.succ_pos _, hb⟩
        | succ k =>
          obtain ⟨hk2, hh⟩ := hget k (Nat.lt_of_succ_lt_succ hk)
          exact ⟨Nat.succ_lt_succ hk2, hh⟩

/-- The signing loop: success yields, positionally, the fully signed form
of each input variables value, with the nonces resolved at
`current_time + index`. -/
theorem sign_variables_go_spec (st : State) (t : Int) :
    ∀ (l : List (Nat × (place_limit_order.Variables × LimitOrderConstructor))) out,
      LimitOrdersConstructor.sign_variables_go st t l = .ok out →
      out.length = l.length ∧
      ∀ k (hk : k < l.length),
        ∃ (hk2 : k < out.length) (signer : Signer)
          (nonces : List PayloadNonces)
          (bc_sigs : List (Option BlockchainSignature)),
          st.signer = .ok signer ∧
          (l.get ⟨k, hk⟩).2.2.make_payload_nonces st
              (i64wrap (t + ((l.get ⟨k, hk⟩).1 : Int))) = .ok nonces ∧
          (l.get ⟨k, hk⟩).2.2.blockchain_signatures signer nonces = .ok bc_sigs ∧
          out.get ⟨k, hk2⟩ = signedForm (l.get ⟨k, hk⟩).2.1 bc_sigs signer := by
  intro l
  induction l with
  | nil =>
    intro out h
    unfold LimitOrdersConstructor.sign_variables_go at h
    simp only [Except.ok.injEq] at h
    subst h
    exact ⟨rfl, fun k hk => absurd hk (Nat.not_lt_zero k)⟩
  | cons hd tl ih =>
    intro out h
    obtain ⟨index, var, constructor⟩ := hd
    unfold LimitOrdersConstructor.sign_variables_go at h
    cases hn : constructor.make_payload_nonces st (i64wrap (t + (index : Int))) with
    | error e => simp [hn] at h
    | ok nonces =>
      cases hs : st.signer with
      | error e => simp [hn, hs] at h
      | ok signer =>
        cases hbc : constructor.blockchain_signatures signer nonces with
        | error e => simp [hn, hs, hbc] at h
        | ok bc_sigs =>
          cases htl : LimitOrdersConstructor.sign_variables_go st t tl with
          | error e => simp [hn, hs, hbc, htl] at h
          | ok out0 =>
            simp only [hn, hs, hbc, htl, except_bind_ok, Except.ok.injEq] at h
            subst h
            obtain ⟨hlen, hget⟩ := ih out0 htl
            refine ⟨by simp [hlen], ?_⟩
            intro k hk
            cases k with
            | zero =>
              exact ⟨Nat.succ_pos _, signer, nonces, bc_sigs, rfl, hn, hbc, rfl⟩
            | succ k =>
              obtain ⟨hk2, signer', nonces', bc_sigs', h1, h2, h3, h4⟩ :=
                hget k (Nat.lt_of_succ_lt_succ hk)
              exact ⟨Nat.succ_lt_succ hk2, signer', nonces', bc_sigs',
                by rw [← hs]; exact h1, h2, h3, h4⟩

/-- Positional characterization of the fully signed sub-order variables:
sub-order `k` is the signed form of the unsigned variables built from input
constructor `k` at index `k`, with nonces resolved at `current_time + k`. -/
theorem signed_variables_spec (c : LimitOrdersConstructor) (t : Int)
    (aff : Option String) (st : State) (out : List place_limit_order.Variables)
    (h : c.signed_variables t aff st = .ok out) :
    out.length = c.constructors.length ∧
    ∀ k (hk : k < c.constructors.length),
      ∃ (hk2 : k < out.length) (signer : Signer)
        (nonces : List PayloadNonces)
        (bc_sigs : List (Option BlockchainSignature))
        (amountP : CurrencyAmountParams),
        st.signer = .ok signer ∧
        (c.constructors.get ⟨k, hk⟩).make_payload_nonces st
            (i64wrap (t + (k : Int))) = .ok nonces ∧
        (c.constructors.get ⟨k, hk⟩).blockchain_signatures signer nonces =
          .ok bc_sigs ∧
        (c.constructors.get ⟨k, hk⟩).me_amount.try_into_params = .ok amountP ∧
        out.get ⟨k, hk2⟩ =
          signedForm (unsignedVariable (c.constructors.get ⟨k, hk⟩) k t aff amountP)
            bc_sigs signer := by
  unfold LimitOrdersConstructor.signed_variables at h
  cases hg : c.graphql_request t aff with
  | error e => rw [hg] at h; exact absurd h (by simp)
  | ok vars =>
    rw [hg] at h
    simp only [except_bind_ok] at h
    have hg' : LimitOrdersConstructor.graphql_request_go t aff
        c.constructors.enum = .ok vars := hg
    obtain ⟨hglen, hgget⟩ := graphql_request_go_spec t aff c.constructors.enum
      vars hg'
    obtain ⟨hslen, hsget⟩ := sign_variables_go_spec st t
      ((vars.zip c.constructors).enum) out h
    have hvl : vars.length = c.constructors.length := by
      rw [hglen, List.enum_length]
    have hzl : (vars.zip c.constructors).length = c.constructors.length := by
      rw [List.length_zip, hvl, Nat.min_self]
    have hol : out.length = c.constructors.length := by
      rw [hslen, List.enum_length, hzl]
    refine ⟨hol, ?_⟩
    intro k hk
    have hke : k < ((vars.zip c.constructors).enum).length := by
      rw [List.enum_length, hzl]; exact hk
    obtain ⟨hk2, signer, nonces, bc_sigs, hs, hmn, hbc, hsf⟩ := hsget k hke
    have hkz : k < (vars.zip c.constructors).length := by rw [hzl]; exact hk
    have hkv : k < vars.length := by rw [hvl]; exact hk
    have hzget : ((vars.zip c.constructors).enum).get ⟨k, hke⟩ =
        (k, vars.get ⟨k, hkv⟩, c.constructors.get ⟨k, hk⟩) := by
      simp only [List.get_eq_getElem, List.getElem_enum, List.getElem_zip]
    rw [hzget] at hmn hbc hsf
    have hken : k < c.constructors.enum.length := by
      rw [List.enum_length]; exact hk
    obtain ⟨hkv2, hb⟩ := hgget k hken
    have hegget : c.constructors.enum.get ⟨k, hken⟩ =
        (k, c.constructors.get ⟨k, hk⟩) := by
      simp only [List.get_eq_getElem, List.getElem_enum]
    rw [hegget] at hb
    obtain ⟨amountP, hamount, hveq⟩ := build_variable_eq _ _ _ _ _ hb
    have hgv : vars.get ⟨k, hkv⟩ = vars.get ⟨k, hkv2⟩ := rfl
    rw [hgv, hveq] at hsf
    exact ⟨hk2, signer, nonces, bc_sigs, amountP, hs, hmn, hbc, hamount, hsf⟩

/-- C9: every constructed wire payload carries constant deprecated
top-level nonces that never reflect the resolved nonce pools: limit-order
payloads (unsigned and fully signed) have `nonce_from = nonce_to = 1234`;
market-order payloads (unsigned and fully signed) have
`nonce_from = nonce_to = Some(0)`. -/
theorem deprecated_nonces_constant :
    (∀ (c : LimitOrdersConstructor) (t : Int) (aff : Option String) out,
      c.graphql_request t aff = .ok out →
      ∀ v ∈ out, v.payload.nonce_from = 1234 ∧ v.payload.nonce_to = 1234)
    ∧ (∀ (c : LimitOrdersConstructor) (t : Int) (aff : Option String)
        (st : State) out,
        c.signed_variables t aff st = .ok out →
        ∀ v ∈ out, v.payload.nonce_from = 1234 ∧ v.payload.nonce_to = 1234)
    ∧ (∀ (c : MarketOrderConstructor) (t : Int) (aff : Option String) v,
        c.graphql_request t aff = .ok v →
        v.payload.nonce_from = some 0 ∧ v.payload.nonce_to = some 0)
    ∧ (∀ (c : MarketOrderConstructor) (nonces : List PayloadNonces) (t : Int)
        (aff : Option String) (signer : Signer) v,
        c.signed_graphql_request nonces t aff signer = .ok v →
        v.payload.nonce_from = some 0 ∧ v.payload.nonce_to = some 0) := by
  refine ⟨?_, ?_, ?_, ?_⟩
  · intro c t aff out h v hv
    obtain ⟨n, hn⟩ := List.mem_iff_get.mp hv
    have hg : LimitOrdersConstructor.graphql_request_go t aff
        c.constructors.enum = .ok out := h
    obtain ⟨hlen, hget⟩ := graphql_request_go_spec t aff c.constructors.enum out hg
    have hn1 : (n : Nat) < c.constructors.enum.length := by
      rw [← hlen]; exact n.isLt
    obtain ⟨hk2, hb⟩ := hget n hn1
    obtain ⟨amountP, _, heq⟩ := build_variable_eq _ _ _ _ _ hb
    have hv' : v = out.get ⟨(n : Nat), hk2⟩ := by rw [← hn]
    rw [hv', heq]
    exact ⟨rfl, rfl⟩
  · intro c t aff st out h v hv
    obtain ⟨n, hn⟩ := List.mem_iff_get.mp hv
    obtain ⟨hlen, hget⟩ := signed_variables_spec c t aff st out h
    have hn1 : (n : Nat) < c.constructors.length := by
      rw [← hlen]; exact n.isLt
    obtain ⟨hk2, signer, nonces, bc_sigs, amountP, _, _, _, _, hsf⟩ := hget n hn1
    have hv' : v = out.get ⟨(n : Nat), hk2⟩ := by rw [← hn]
    rw [hv', hsf]
    exact ⟨rfl, rfl⟩
  · intro c t aff v h
    unfold MarketOrderConstructor.graphql_request at h
    cases ham : c.me_amount.try_into_params with
    | error e => simp [ham] at h
    | ok amountP =>
      simp only [ham, except_bind_ok, Except.ok.injEq] at h
      subst h
      exact ⟨rfl, rfl⟩
  · intro c nonces t aff signer v h
    unfold MarketOrderConstructor.signed_graphql_request at h
    cases hg : c.graphql_request t aff with
    | error e => rw [hg] at h; exact absurd h (by simp)
    | ok request =>
      rw [hg] at h
      simp only [except_bind_ok] at h
      cases hbc : c.blockchain_signatures signer nonces with
      | error e => rw [hbc] at h; exact absurd h (by simp)
      | ok bc_sigs =>
        rw [hbc] at h
        simp only [except_bind_ok, Except.ok.injEq] at h
        subst h
        unfold MarketOrderConstructor.graphql_request at hg
        cases ham : c.me_amount.try_into_params with
        | error e => rw [ham] at hg; exact absurd hg (by simp)
        | ok amountP =>
          rw [ham] at hg
          simp only [except_bind_ok, Except.ok.injEq] at hg
          rw [← hg]
          exact ⟨rfl, rfl⟩
  
/-- Witness for C9: the concrete market-order payload at time 7. -/
theorem deprecated_nonces_constant_witness :
    marketVariable7.payload.nonce_from = some 0 ∧
    marketVariable7.payload.nonce_to = some 0 :=
  deprecated_nonces_constant.2.2.1 testMarketConstructor 7 none
    marketVariable7 rfl

/-- C1: the canonical signing string covers every field of the payload
except the blockchain-signature list and the overall signature: the string
is invariant under the contents of `blockchain_signatures` (the excluded
field), and in both signed flows the attached overall signature is computed
over the canonical string of the payload as it stands at signing time —
blockchain signatures attached but the signature field still the empty
placeholder — so the final signature value never contributes to its own
signing input. -/
theorem canonical_string_excludes_signatures :
    (∀ (v : place_limit_order.Variables)
      (sigs₁ sigs₂ : List (Option BlockchainSignature)),
      limit_order_canonical_string
        { v with payload := { v.payload with blockchain_signatures := sigs₁ } } =
      limit_order_canonical_string
        { v with payload := { v.payload with blockchain_signatures := sigs₂ } })
    ∧ (∀ (v : place_market_order.Variables)
        (sigs₁ sigs₂ : List (Option BlockchainSignature)),
        market_order_canonical_string
          { v with payload := { v.payload with blockchain_signatures := sigs₁ } } =
        market_order_canonical_string
          { v with payload := { v.payload with blockchain_signatures := sigs₂ } })
    ∧ (∀ (c : LimitOrdersConstructor) (t : Int) (aff : Option String)
        (st : State) out,
        c.signed_variables t aff st = .ok out →
        ∀ v ∈ out, ∃ signer, st.signer = .ok signer ∧
          v.signature = signer.sign_canonical_string
            (limit_order_canonical_string
              { v with signature := RequestPayloadSignature.empty }))
    ∧ (∀ (c : MarketOrderConstructor) (nonces : List PayloadNonces) (t : Int)
        (aff : Option String) (signer : Signer) v,
        c.signed_graphql_request nonces t aff signer = .ok v →
        v.signature = signer.sign_canonical_string
          (market_order_canonical_string
            { v with signature := RequestPayloadSignature.empty })) := by
  refine ⟨?_, ?_, ?_, ?_⟩
  · intro v sigs₁ sigs₂
    rfl
  · intro v sigs₁ sigs₂
    rfl
  · intro c t aff st out h v hv
    obtain ⟨n, hn⟩ := List.mem_iff_get.mp hv
    obtain ⟨hlen, hget⟩ := signed_variables_spec c t aff st out h
    have hn1 : (n : Nat) < c.constructors.length := by
      rw [← hlen]; exact n.isLt
    obtain ⟨hk2, signer, nonces, bc_sigs, amountP, hs, _, _, _, hsf⟩ := hget n hn1
    refine ⟨signer, hs, ?_⟩
    have hv' : v = out.get ⟨(n : Nat), hk2⟩ := by rw [← hn]
    rw [hv', hsf]
    rfl
  · intro c nonces t aff signer v h
    unfold MarketOrderConstructor.signed_graphql_request at h
    cases hg : c.graphql_request t aff with
    | error e => rw [hg] at h; exact absurd h (by simp)
    | ok request =>
      rw [hg] at h
      simp only [except_bind_ok] at h
      cases hbc : c.blockchain_signatures signer nonces with
      | error e => rw [hbc] at h; exact absurd h (by simp)
      | ok bc_sigs =>
        rw [hbc] at h
        simp only [except_bind_ok, Except.ok.injEq] at h
        subst h
        unfold MarketOrderConstructor.graphql_request at hg
        cases ham : c.me_amount.try_into_params with
        | error e => rw [ham] at hg; exact absurd hg (by simp)
        | ok amountP =>
          rw [ham] at hg
          simp only [except_bind_ok, Except.ok.injEq] at hg
          rw [← hg]

/-- Witness for C1: the fully signed one-element limit batch at time 7, in
which each attached signature re-derives from the canonical string of the
signed payload with the signature field reset to the empty placeholder. -/
theorem canonical_string_excludes_signatures_witness :
    ∃ out, testLimitBatch.signed_variables 7 none testState = .ok out ∧
      ∀ v ∈ out, ∃ signer, testState.signer = .ok signer ∧
        v.signature = signer.sign_canonical_string
          (limit_order_canonical_string
            { v with signature := RequestPayloadSignature.empty }) := by
  refine ⟨_, rfl, ?_⟩
  exact canonical_string_excludes_signatures.2.2.1 testLimitBatch 7 none
    testState _ rfl

/-- `i64wrap` is the identity on in-range values. -/
theorem i64wrap_eq_self (x : Int) (h1 : -(2 ^ 63) ≤ x) (h2 : x < 2 ^ 63) :
    i64wrap x = x := by
  unfold i64wrap
  omega

/-- `u32cast` widened back to `Int` is the identity on in-range values. -/
theorem u32cast_eq_self (x : Int) (h1 : 0 ≤ x) (h2 : x < 2 ^ 32) :
    (u32cast x : Int) = x := by
  unfold u32cast
  omega

/-- The modelled limit-order `make_payload_nonces` stamps every combination
with the order nonce derived from the supplied time. -/
theorem limit_make_payload_nonces_order (cst : LimitOrderConstructor)
    (st : State) (time : Int) (nonces : List PayloadNonces)
    (h : cst.make_payload_nonces st time = .ok nonces) :
    ∀ p ∈ nonces, p.order_nonce = Nonce.Value (u32cast time) := by
  unfold LimitOrderConstructor.make_payload_nonces at h
  cases hp : st.asset_nonces with
  | none => simp [hp] at h
  | some pools =>
    rw [hp] at h
    simp only [except_pure_eq, except_bind_ok] at h
    cases hF : (pools.lookup cst.market.asset_a.asset.name).bind List.head? with
    | none => simp [hF] at h
    | some nf =>
      rw [hF] at h
      simp only [except_pure_eq, except_bind_ok] at h
      cases hT : (pools.lookup cst.market.asset_b.asset.name).bind List.head? with
      | none => simp [hT] at h
      | some nt =>
        rw [hT] at h
        simp only [except_pure_eq, except_bind_ok, Except.ok.injEq] at h
        subst h
        intro p hp2
        simp only [List.mem_singleton] at hp2
        subst hp2
        rfl

/-- Counterexample for C7 as stated: at `current_time = 2^32` the payload
order nonce of sub-order 0 is the u32-truncated value `0`, not
`current_time + 0`. -/
theorem limit_nonce_order_counterexample :
    ∃ out, testLimitBatch.graphql_request (2 ^ 32) none = .ok out ∧
      ∃ h : 0 < out.length,
        (out.get ⟨0, h⟩).payload.nonce_order ≠ 2 ^ 32 + 0 := by
  refine ⟨_, rfl, Nat.one_pos, ?_⟩
  decide

/-- C7 amended: sub-order `i`'s payload order nonce is the u32-truncated
current time plus `i` (under wrapping `i64` addition); when
`0 ≤ current_time` and `current_time + N ≤ 2^32` (no truncation), it equals
`current_time + i`, the order nonces within one batch are pairwise
distinct, and the nonces resolved for sub-order `i`'s blockchain fill
orders carry the same `current_time + i` value (as a u32). -/
theorem limit_nonce_order_amended :
    (∀ (c : LimitOrdersConstructor) (t : Int) (aff : Option String) out,
      c.graphql_request t aff = .ok out →
      0 ≤ t → t + c.constructors.length ≤ 2 ^ 32 →
      ∀ k (hk : k < c.constructors.length),
        ∃ hk2 : k < out.length,
          (out.get ⟨k, hk2⟩).payload.nonce_order = t + k ∧
          ∀ j (hj2 : j < out.length), j < c.constructors.length → j ≠ k →
            (out.get ⟨j, hj2⟩).payload.nonce_order ≠
              (out.get ⟨k, hk2⟩).payload.nonce_order)
    ∧ (∀ (c : LimitOrdersConstructor) (t : Int) (aff : Option String)
        (st : State) out,
        c.signed_variables t aff st = .ok out →
        0 ≤ t → t + c.constructors.length ≤ 2 ^ 32 →
        ∀ k (hk : k < c.constructors.length),
          ∃ nonces, (c.constructors.get ⟨k, hk⟩).make_payload_nonces st
              (i64wrap (t + (k : Int))) = .ok nonces ∧
            ∀ p ∈ nonces, p.order_nonce = Nonce.Value ((t + (k : Int)).toNat)) := by
  constructor
  · intro c t aff out h ht0 htN k hk
    have hg : LimitOrdersConstructor.graphql_request_go t aff
        c.constructors.enum = .ok out := h
    obtain ⟨hlen, hget⟩ := graphql_request_go_spec t aff c.constructors.enum out hg
    have hnonce : ∀ j (hj : j < c.constructors.length) (hj2 : j < out.length),
        (out.get ⟨j, hj2⟩).payload.nonce_order = t + j := by
      intro j hj hj2
      have hje : j < c.constructors.enum.length := by
        rw [List.enum_length]; exact hj
      obtain ⟨hj3, hb⟩ := hget j hje
      have hegget : c.constructors.enum.get ⟨j, hje⟩ =
          (j, c.constructors.get ⟨j, hj⟩) := by
        simp only [List.get_eq_getElem, List.getElem_enum]
      rw [hegget] at hb
      obtain ⟨amountP, _, hveq⟩ := build_variable_eq _ _ _ _ _ hb
      have : out.get ⟨j, hj2⟩ = out.get ⟨j, hj3⟩ := rfl
      rw [this, hveq]
      show i64wrap ((u32cast t : Int) + (j : Int)) = t + j
      have hu : (u32cast t : Int) = t := u32cast_eq_self t ht0 (by omega)
      rw [hu]
      exact i64wrap_eq_self _ (by omega) (by omega)
    have hk2 : k < out.length := by
      rw [hlen, List.enum_length]; exact hk
    refine ⟨hk2, hnonce k hk hk2, ?_⟩
    intro j hj2 hj hjk
    rw [hnonce j hj hj2, hnonce k hk hk2]
    omega
  · intro c t aff st out h ht0 htN k hk
    obtain ⟨hlen, hget⟩ := signed_variables_spec c t aff st out h
    obtain ⟨hk2, signer, nonces, bc_sigs, amountP, _, hmn, _, _, _⟩ := hget k hk
    refine ⟨nonces, hmn, ?_⟩
    intro p hp
    have horder := limit_make_payload_nonces_order _ _ _ _ hmn p hp
    rw [horder]
    have hw : i64wrap (t + (k : Int)) = t + k :=
      i64wrap_eq_self _ (by omega) (by omega)
    rw [hw]
    show Nonce.Value (u32cast (t + (k : Int))) =
      Nonce.Value ((t + (k : Int)).toNat)
    unfold u32cast
    congr 1
    omega

/-- Witness for the amended C7: the one-element batch at time 7 has payload
order nonce `7 + 0`. -/
theorem limit_nonce_order_amended_witness :
    ∃ out, testLimitBatch.graphql_request 7 none = .ok out ∧
      ∃ hk2 : 0 < out.length,
        (out.get ⟨0, hk2⟩).payload.nonce_order = 7 + (0 : Nat) := by
  refine ⟨_, rfl, ?_⟩
  obtain ⟨hk2, h1, _⟩ := limit_nonce_order_amended.1 testLimitBatch 7 none _
    rfl (by norm_num) (by norm_num [testLimitBatch]) 0 (by norm_num [testLimitBatch])
  exact ⟨hk2, h1⟩

theorem string_data_inj {a b : String} (h : a.data = b.data) : a = b := by
  cases a
  cases b
  exact congrArg String.mk (by simpa using h)

theorem string_append_data (a b : String) : (a ++ b).data = a.data ++ b.data := rfl

theorem digitChar_inj_lt (a b : Nat) (ha : a < 10) (hb : b < 10)
    (h : Nat.digitChar a = Nat.digitChar b) : a = b := by
  interval_cases a <;> interval_cases b <;> simp_all [Nat.digitChar]

theorem map_digitChar_inj : ∀ (l1 l2 : List Nat), (∀ x ∈ l1, x < 10) → (∀ x ∈ l2, x < 10) →
    l1.map Nat.digitChar = l2.map Nat.digitChar → l1 = l2 := by
  intro l1
  induction l1 with
  | nil => intro l2 _ _ h; cases l2 <;> simp_all
  | cons a l1 ih =>
    intro l2 h1 h2 h
    cases l2 with
    | nil => simp_all
    | cons b l2 =>
      simp only [List.map_cons, List.cons.injEq] at h
      have ha := h1 a (by simp)
      have hb := h2 b (by simp)
      have := digitChar_inj_lt a b ha hb h.1
      subst this
      rw [ih l2 (fun x hx => h1 x (by simp [hx])) (fun x hx => h2 x (by simp [hx])) h.2]

theorem toDigitsCore_digits :
    ∀ (fuel n : Nat) (acc : List Char), n < fuel →
      Nat.toDigitsCore 10 fuel n acc =
        ((if n = 0 then [0] else (Nat.digits 10 n).reverse).map Nat.digitChar) ++ acc := by
  intro fuel
  induction fuel with
  | zero => intro n acc h; exact absurd h (Nat.not_lt_zero n)
  | succ fuel ih =>
    intro n acc h
    unfold Nat.toDigitsCore
    by_cases hdiv : n / 10 = 0
    · have hn10 : n < 10 := by omega
      simp only [hdiv, if_pos]
      by_cases hn0 : n = 0
      · subst hn0
        simp
      · have hd : Nat.digits 10 n = [n] := by
          rw [Nat.digits_def' (by norm_num : (1:ℕ) < 10) (Nat.pos_of_ne_zero hn0)]
          have hmod : n % 10 = n := Nat.mod_eq_of_lt hn10
          rw [hmod, hdiv]
          simp
        simp [hn0, hd, Nat.mod_eq_of_lt hn10]
    · have hn0 : n ≠ 0 := by omega
      have hlt : n / 10 < fuel := by omega
      simp only [hdiv, if_neg]
      rw [ih (n / 10) _ hlt]
      have hd : Nat.digits 10 n = n % 10 :: Nat.digits 10 (n / 10) :=
        Nat.digits_def' (by norm_num : (1:ℕ) < 10) (Nat.pos_of_ne_zero hn0)
      rw [hd]
      simp [hn0, hdiv, List.map_append]

theorem nat_repr_inj {m n : Nat} (h : Nat.repr m = Nat.repr n) : m = n := by
  unfold Nat.repr Nat.toDigits at h
  rw [toDigitsCore_digits (m + 1) m [] (Nat.lt_succ_self m),
    toDigitsCore_digits (n + 1) n [] (Nat.lt_succ_self n)] at h
  simp only [List.append_nil] at h
  have hdata : ((if m = 0 then [0] else (Nat.digits 10 m).reverse).map Nat.digitChar) =
      ((if n = 0 then [0] else (Nat.digits 10 n).reverse).map Nat.digitChar) := by
    have := congrArg String.data h
    simpa [List.asString] using this
  have hm10 : ∀ x ∈ (if m = 0 then [0] else (Nat.digits 10 m).reverse), x < 10 := by
    by_cases hm : m = 0
    · simp [hm]
    · intro x hx
      rw [if_neg hm, List.mem_reverse] at hx
      exact Nat.digits_lt_base (by norm_num) hx
  have hn10 : ∀ x ∈ (if n = 0 then [0] else (Nat.digits 10 n).reverse), x < 10 := by
    by_cases hn : n = 0
    · simp [hn]
    · intro x hx
      rw [if_neg hn, List.mem_reverse] at hx
      exact Nat.digits_lt_base (by norm_num) hx
  have hlists := map_digitChar_inj _ _ hm10 hn10 hdata
  by_cases hm : m = 0 <;> by_cases hn : n = 0
  · omega
  · exfalso
    rw [if_pos hm, if_neg hn] at hlists
    have hdig : Nat.digits 10 n = [0] := by
      have := congrArg List.reverse hlists
      simpa using this.symm
    have := congrArg (Nat.ofDigits 10) hdig
    rw [Nat.ofDigits_digits] at this
    simp [Nat.ofDigits] at this
    exact hn this
  · exfalso
    rw [if_neg hm, if_pos hn] at hlists
    have hdig : Nat.digits 10 m = [0] := by
      have := congrArg List.reverse hlists
      simpa using this
    have := congrArg (Nat.ofDigits 10) hdig
    rw [Nat.ofDigits_digits] at this
    simp [Nat.ofDigits] at this
    exact hm this
  · rw [if_neg hm, if_neg hn] at hlists
    have hdig : Nat.digits 10 m = Nat.digits 10 n := by
      have := congrArg List.reverse hlists
      simpa using this
    have := congrArg (Nat.ofDigits 10) hdig
    rwa [Nat.ofDigits_digits, Nat.ofDigits_digits] at this

/-- `toString` on naturals is `Nat.repr`, hence injective. -/
theorem toString_nat_inj {i j : Nat} (h : (toString i : String) = toString j) :
    i = j :=
  nat_repr_inj h

/-- Appending distinct indices to the same prefix gives distinct keys. -/
theorem key_same_prefix_inj (p : String) {i j : Nat}
    (h : p ++ toString i = p ++ toString j) : i = j := by
  have hd := congrArg String.data h
  rw [string_append_data, string_append_data] at hd
  have hdd := List.append_cancel_left hd
  exact toString_nat_inj (string_data_inj hdd)

/-- `payloadN` keys never collide with `signatureM` keys. -/
theorem payload_key_ne_signature_key (i j : Nat) :
    "payload" ++ toString i ≠ "signature" ++ toString j := by
  intro h
  have hd := congrArg String.data h
  rw [string_append_data, string_append_data] at hd
  have h1 : "payload".data = ['p', 'a', 'y', 'l', 'o', 'a', 'd'] := rfl
  have h2 : "signature".data = ['s', 'i', 'g', 'n', 'a', 't', 'u', 'r', 'e'] := rfl
  rw [h1, h2] at hd
  simp at hd

/-- `payloadN` keys never collide with `affiliateM` keys. -/
theorem payload_key_ne_affiliate_key (i j : Nat) :
    "payload" ++ toString i ≠ "affiliate" ++ toString j := by
  intro h
  have hd := congrArg String.data h
  rw [string_append_data, string_append_data] at hd
  have h1 : "payload".data = ['p', 'a', 'y', 'l', 'o', 'a', 'd'] := rfl
  have h2 : "affiliate".data = ['a', 'f', 'f', 'i', 'l', 'i', 'a', 't', 'e'] := rfl
  rw [h1, h2] at hd
  simp at hd

/-- `signatureN` keys never collide with `affiliateM` keys. -/
theorem signature_key_ne_affiliate_key (i j : Nat) :
    "signature" ++ toString i ≠ "affiliate" ++ toString j := by
  intro h
  have hd := congrArg String.data h
  rw [string_append_data, string_append_data] at hd
  have h1 : "signature".data = ['s', 'i', 'g', 'n', 'a', 't', 'u', 'r', 'e'] := rfl
  have h2 : "affiliate".data = ['a', 'f', 'f', 'i', 'l', 'i', 'a', 't', 'e'] := rfl
  rw [h1, h2] at hd
  simp at hd

/-- `String.join` on nil. -/
theorem string_join_nil : String.join [] = "" := rfl

/-- Folding append from an arbitrary accumulator. -/
theorem string_foldl_append (acc : String) :
    ∀ (xs : List String), xs.foldl (· ++ ·) acc = acc ++ xs.foldl (· ++ ·) "" := by
  intro xs
  induction xs generalizing acc with
  | nil => simp [List.foldl]
  | cons x xs ih =>
    simp only [List.foldl]
    rw [ih (acc ++ x), ih ("" ++ x)]
    simp [String.append_assoc]

/-- `String.join` on cons. -/
theorem string_join_cons (x : String) (xs : List String) :
    String.join (x :: xs) = x ++ String.join xs := by
  show (x :: xs).foldl (· ++ ·) "" = x ++ xs.foldl (· ++ ·) ""
  simp only [List.foldl]
  rw [string_foldl_append]
  simp

/-- `String.join` over an append. -/
theorem string_join_append (xs ys : List String) :
    String.join (xs ++ ys) = String.join xs ++ String.join ys := by
  induction xs with
  | nil => simp [string_join_nil]
  | cons x xs ih =>
    simp only [List.cons_append, string_join_cons, ih, String.append_assoc]

/-- The tail-recursive worker of `String.intercalate`, in closed form. -/
theorem intercalate_go_eq (s : String) :
    ∀ (as : List String) (acc : String),
      String.intercalate.go acc s as =
        acc ++ String.join (as.map fun a => s ++ a) := by
  intro as
  induction as with
  | nil =>
    intro acc
    show acc = acc ++ String.join []
    rw [string_join_nil, String.append_empty]
  | cons a as ih =>
    intro acc
    show String.intercalate.go (acc ++ s ++ a) s as = _
    rw [ih (acc ++ s ++ a)]
    simp [List.map_cons, string_join_cons, String.append_assoc]

/-- `String.intercalate` of a mapped range, as a join of prefixed pieces:
the form the assembly loop produces. -/
theorem intercalate_range_eq (g : Nat → String) (n : Nat) :
    String.intercalate ", " ((List.range n).map g) =
      String.join ((List.range n).map fun i =>
        (if i = 0 then "" else ", ") ++ g i) := by
  cases n with
  | zero => rfl
  | succ n =>
    rw [List.range_succ_eq_map]
    simp only [List.map_cons]
    show String.intercalate.go (g 0) ", " _ = _
    rw [intercalate_go_eq]
    simp only [List.map_map, string_join_cons]
    simp only [if_pos trivial, String.empty_append]
    congr 1

/-- `mapInsert` appends when the key is fresh. -/
theorem mapInsert_fresh (m : List (String × Json)) (k : String) (v : Json)
    (h : ∀ kv ∈ m, kv.1 ≠ k) : mapInsert m k v = m ++ [(k, v)] := by
  unfold mapInsert
  rw [if_neg]
  simp only [List.any_eq_true, beq_iff_eq, not_exists, not_and]
  intro kv hkv
  exact h kv hkv

/-- A run of identical pieces commutes with one more piece. -/
theorem join_replicate_comm (c : String) (n : Nat) :
    String.join (List.replicate n c) ++ c = c ++ String.join (List.replicate n c) := by
  induction n with
  | zero => simp [string_join_nil]
  | succ n ih =>
    simp only [List.replicate_succ, string_join_cons, String.append_assoc, ih]

/-- Closed form of the batch-assembly loop, for any start index and
accumulators: it appends the three variable-map entries per sub-order (in
index order), extends the parameter declarations with one comma-separated
triple per sub-order, and nests the aliased calls with one indentation run
and one aliased call per sub-order. -/
theorem assemble_go_spec :
    ∀ (vs : List place_limit_order.Variables) (j : Nat)
      (map : List (String × Json)) (params calls : String),
      (∀ kv ∈ map, ∃ i, i < j ∧
        (kv.1 = "payload" ++ toString i ∨ kv.1 = "signature" ++ toString i ∨
         kv.1 = "affiliate" ++ toString i)) →
      LimitOrdersConstructor.assemble_go (vs.enumFrom j) (map, params, calls) =
        (map ++ varEntriesFrom j vs,
         params ++ String.join ((List.range' j vs.length).map fun i =>
           (if i = 0 then "" else ", ") ++ paramDecl i),
         String.join (List.replicate vs.length callIndent) ++ calls ++
           String.join ((List.range' j vs.length).map callAlias)) := by
  intro vs
  induction vs with
  | nil =>
    intro j map params calls hkeys
    show (map, params, calls) = _
    simp [varEntriesFrom, string_join_nil]
  | cons v vs ih =>
    intro j map params calls hkeys
    have hfresh_p : ∀ kv ∈ map, kv.1 ≠ "payload" ++ toString j := by
      intro kv hkv h
      obtain ⟨i, hij, hcase⟩ := hkeys kv hkv
      rcases hcase with hc | hc | hc
      · rw [hc] at h
        exact absurd (key_same_prefix_inj "payload" h) (by omega)
      · rw [hc] at h
        exact payload_key_ne_signature_key j i h.symm
      · rw [hc] at h
        exact payload_key_ne_affiliate_key j i h.symm
    have hfresh_s : ∀ kv ∈ map ++ [("payload" ++ toString j, v.payload.toJson)],
        kv.1 ≠ "signature" ++ toString j := by
      intro kv hkv h
      rcases List.mem_append.mp hkv with hkv | hkv
      · obtain ⟨i, hij, hcase⟩ := hkeys kv hkv
        rcases hcase with hc | hc | hc
        · rw [hc] at h
          exact payload_key_ne_signature_key i j h
        · rw [hc] at h
          exact absurd (key_same_prefix_inj "signature" h) (by omega)
        · rw [hc] at h
          exact signature_key_ne_affiliate_key j i h.symm
      · simp only [List.mem_singleton] at hkv
        rw [hkv] at h
        exact payload_key_ne_signature_key j j h
    have hfresh_a : ∀ kv ∈ (map ++ [("payload" ++ toString j, v.payload.toJson)]) ++
        [("signature" ++ toString j, v.signature.toJson)],
        kv.1 ≠ "affiliate" ++ toString j := by
      intro kv hkv h
      rcases List.mem_append.mp hkv with hkv | hkv
      · rcases List.mem_append.mp hkv with hkv | hkv
        · obtain ⟨i, hij, hcase⟩ := hkeys kv hkv
          rcases hcase with hc | hc | hc
          · rw [hc] at h
            exact payload_key_ne_affiliate_key i j h
          · rw [hc] at h
            exact signature_key_ne_affiliate_key i j h
          · rw [hc] at h
            exact absurd (key_same_prefix_inj "affiliate" h) (by omega)
        · simp only [List.mem_singleton] at hkv
          rw [hkv] at h
          exact payload_key_ne_affiliate_key j j h
      · simp only [List.mem_singleton] at hkv
        rw [hkv] at h
        exact signature_key_ne_affiliate_key j j h
    have hstep : LimitOrdersConstructor.assemble_go ((v :: vs).enumFrom j)
        (map, params, calls) =
      LimitOrdersConstructor.assemble_go (vs.enumFrom (j + 1))
        (((map ++ [("payload" ++ toString j, v.payload.toJson)]) ++
            [("signature" ++ toString j, v.signature.toJson)]) ++
            [("affiliate" ++ toString j, Json.ofOptionStr v.affiliate)],
         (if j = 0 then params else params ++ ", ") ++ "$" ++
           ("payload" ++ toString j) ++ ": PlaceLimitOrderParams!, $" ++
           ("signature" ++ toString j) ++ ": Signature!, $" ++
           ("affiliate" ++ toString j) ++ ": AffiliateDeveloperCode",
         "\n                " ++ calls ++ "\n                response" ++
           toString j ++ ": placeLimitOrder(payload: $" ++
           ("payload" ++ toString j) ++ ", signature: $" ++
           ("signature" ++ toString j) ++ ", affiliateDeveloperCode: $" ++
           ("affiliate" ++ toString j) ++
           ") \x7b\n                    id\n                    status\n                    ordersTillSignState,\n                    buyOrSell,\n                    market \x7b\n                        name\n                    \x7d,\n                    placedAt,\n                    type\n                \x7d\n                ") := by
      rw [List.enumFrom_cons]
      show LimitOrdersConstructor.assemble_go _ _ = _
      simp only [LimitOrdersConstructor.assemble_go]
      rw [mapInsert_fresh _ _ _ hfresh_p, mapInsert_fresh _ _ _ hfresh_s,
        mapInsert_fresh _ _ _ hfresh_a]
    rw [hstep, ih (j + 1) _ _ _ ?hkeys]
    case hkeys =>
      intro kv hkv
      rcases List.mem_append.mp hkv with hkv | hkv
      · rcases List.mem_append.mp hkv with hkv | hkv
        · rcases List.mem_append.mp hkv with hkv | hkv
          · obtain ⟨i, hij, hcase⟩ := hkeys kv hkv
            exact ⟨i, by omega, hcase⟩
          · simp only [List.mem_singleton] at hkv
            exact ⟨j, by omega, Or.inl (by rw [hkv])⟩
        · simp only [List.mem_singleton] at hkv
          exact ⟨j, by omega, Or.inr (Or.inl (by rw [hkv]))⟩
      · simp only [List.mem_singleton] at hkv
        exact ⟨j, by omega, Or.inr (Or.inr (by rw [hkv]))⟩
    refine congrArg₂ _ ?_ (congrArg₂ _ ?_ ?_)
    · simp only [varEntriesFrom, List.enumFrom_cons, List.flatMap_cons,
        List.append_assoc, List.cons_append, List.nil_append]
    · rw [List.length_cons, List.range'_succ, List.map_cons, string_join_cons]
      by_cases hj : j = 0
      · subst hj
        simp only [if_pos, paramDecl, String.append_assoc, String.empty_append,
          String.append_empty, reduceIte]
      · simp only [if_neg hj, paramDecl, String.append_assoc]
    · rw [List.length_cons, List.replicate_succ, string_join_cons,
        List.range'_succ, List.map_cons, string_join_cons]
      have hcomm : ∀ X, String.join (List.replicate vs.length callIndent) ++
          (callIndent ++ X) =
          callIndent ++ (String.join (List.replicate vs.length callIndent) ++ X) := by
        intro X
        rw [← String.append_assoc, join_replicate_comm, String.append_assoc]
      rw [show ("\n                " : String) = callIndent from rfl]
      simp only [String.append_assoc]
      rw [hcomm]
      simp only [callAlias, String.append_assoc]

/-- One step of the variable-map entries. -/
theorem varEntriesFrom_cons (j : Nat) (v : place_limit_order.Variables)
    (vs : List place_limit_order.Variables) :
    varEntriesFrom j (v :: vs) =
      ("payload" ++ toString j, v.payload.toJson) ::
      ("signature" ++ toString j, v.signature.toJson) ::
      ("affiliate" ++ toString j, Json.ofOptionStr v.affiliate) ::
      varEntriesFrom (j + 1) vs := by
  simp [varEntriesFrom, List.enumFrom_cons, List.flatMap_cons]

/-- The variable map has three entries per sub-order. -/
theorem varEntriesFrom_length :
    ∀ (vs : List place_limit_order.Variables) (j : Nat),
      (varEntriesFrom j vs).length = 3 * vs.length := by
  intro vs
  induction vs with
  | nil => intro j; rfl
  | cons v vs ih =>
    intro j
    rw [varEntriesFrom_cons]
    simp only [List.length_cons, ih, List.length_cons]
    omega

/-- Every key of the variable map names one of the three variables of some
sub-order at or beyond the start index. -/
theorem varEntriesFrom_keys_mem :
    ∀ (vs : List place_limit_order.Variables) (j : Nat) (k : String),
      k ∈ (varEntriesFrom j vs).map Prod.fst →
      ∃ i, j ≤ i ∧ (k = "payload" ++ toString i ∨ k = "signature" ++ toString i ∨
        k = "affiliate" ++ toString i) := by
  intro vs
  induction vs with
  | nil => intro j k hk; simp [varEntriesFrom] at hk
  | cons v vs ih =>
    intro j k hk
    rw [varEntriesFrom_cons] at hk
    simp only [List.map_cons, List.mem_cons] at hk
    rcases hk with hk | hk | hk | hk
    · exact ⟨j, Nat.le_refl j, Or.inl hk⟩
    · exact ⟨j, Nat.le_refl j, Or.inr (Or.inl hk)⟩
    · exact ⟨j, Nat.le_refl j, Or.inr (Or.inr hk)⟩
    · obtain ⟨i, hij, hcase⟩ := ih (j + 1) k hk
      exact ⟨i, by omega, hcase⟩

/-- The variable-map keys are pairwise distinct. -/
theorem varEntriesFrom_keys_nodup :
    ∀ (vs : List place_limit_order.Variables) (j : Nat),
      ((varEntriesFrom j vs).map Prod.fst).Nodup := by
  intro vs
  induction vs with
  | nil => intro j; simp [varEntriesFrom]
  | cons v vs ih =>
    intro j
    rw [varEntriesFrom_cons]
    simp only [List.map_cons, List.nodup_cons, List.mem_cons]
    have hrest : ∀ (p : String), (∀ i, j + 1 ≤ i →
        p ≠ "payload" ++ toString i ∧ p ≠ "signature" ++ toString i ∧
        p ≠ "affiliate" ++ toString i) →
        p ∉ (varEntriesFrom (j + 1) vs).map Prod.fst := by
      intro p hp hmem
      obtain ⟨i, hij, hcase⟩ := varEntriesFrom_keys_mem vs (j + 1) p hmem
      obtain ⟨h1, h2, h3⟩ := hp i hij
      rcases hcase with hc | hc | hc
      · exact h1 hc
      · exact h2 hc
      · exact h3 hc
    refine ⟨?_, ?_, ?_, ih (j + 1)⟩
    · push_neg
      refine ⟨payload_key_ne_signature_key j j, payload_key_ne_affiliate_key j j, ?_⟩
      apply hrest
      intro i hi
      refine ⟨?_, payload_key_ne_signature_key j i, payload_key_ne_affiliate_key j i⟩
      intro hc
      exact absurd (key_same_prefix_inj "payload" hc) (by omega)
    · push_neg
      refine ⟨signature_key_ne_affiliate_key j j, ?_⟩
      apply hrest
      intro i hi
      refine ⟨fun hc => payload_key_ne_signature_key i j hc.symm, ?_,
        signature_key_ne_affiliate_key j i⟩
      intro hc
      exact absurd (key_same_prefix_inj "signature" hc) (by omega)
    · apply hrest
      intro i hi
      refine ⟨fun hc => payload_key_ne_affiliate_key i j hc.symm,
        fun hc => signature_key_ne_affiliate_key i j hc.symm, ?_⟩
      intro hc
      exact absurd (key_same_prefix_inj "affiliate" hc) (by omega)

/-- C4: the assembled batched mutation declares exactly one typed variable
triple and one aliased call per sub-order, indices `0..N-1` increasing with
no gaps and in input order; the variable map has exactly `3N` entries with
pairwise-distinct keys, and sub-order `i`'s `payloadI`/`signatureI`/
`affiliateI` entries hold the signed variables built from input request
`i`. -/
theorem batch_assembly (c : LimitOrdersConstructor) (t : Int)
    (aff : Option String) (st : State) (body : MultiQueryBody)
    (h : c.signed_graphql_request t aff st = .ok body) :
    ∃ signed, c.signed_variables t aff st = .ok signed ∧
      signed.length = c.constructors.length ∧
      (∀ k (hk : k < c.constructors.length),
        ∃ (hk2 : k < signed.length) (signer : Signer)
          (nonces : List PayloadNonces)
          (bc_sigs : List (Option BlockchainSignature))
          (amountP : CurrencyAmountParams),
          st.signer = .ok signer ∧
          (c.constructors.get ⟨k, hk⟩).make_payload_nonces st
              (i64wrap (t + (k : Int))) = .ok nonces ∧
          (c.constructors.get ⟨k, hk⟩).blockchain_signatures signer nonces =
            .ok bc_sigs ∧
          (c.constructors.get ⟨k, hk⟩).me_amount.try_into_params = .ok amountP ∧
          signed.get ⟨k, hk2⟩ =
            signedForm (unsignedVariable (c.constructors.get ⟨k, hk⟩) k t aff amountP)
              bc_sigs signer) ∧
      body.query_variables = varEntries signed ∧
      body.query_variables.length = 3 * c.constructors.length ∧
      (body.query_variables.map Prod.fst).Nodup ∧
      body.operation_name = "PlaceLimitOrder" ∧
      body.query = "\n                mutation PlaceLimitOrder(" ++
        String.intercalate ", "
          ((List.range c.constructors.length).map paramDecl) ++
        ") \x7b\n                    " ++
        (String.join (List.replicate c.constructors.length callIndent) ++
          String.join ((List.range c.constructors.length).map callAlias)) ++
        "\n                \x7d\n            " := by
  unfold LimitOrdersConstructor.signed_graphql_request at h
  cases hsv : c.signed_variables t aff st with
  | error e => rw [hsv] at h; exact absurd h (by simp)
  | ok signed =>
    rw [hsv] at h
    simp only [except_bind_ok] at h
    obtain ⟨hlen, hspec⟩ := signed_variables_spec c t aff st signed hsv
    have hempty : ∀ kv ∈ ([] : List (String × Json)), ∃ i, i < 0 ∧
        (kv.1 = "payload" ++ toString i ∨ kv.1 = "signature" ++ toString i ∨
         kv.1 = "affiliate" ++ toString i) := by
      intro kv hkv
      exact absurd hkv (List.not_mem_nil kv)
    have henum : signed.enum = signed.enumFrom 0 := rfl
    rw [henum, assemble_go_spec signed 0 [] "" "" hempty] at h
    simp only [List.nil_append, String.empty_append, Except.ok.injEq] at h
    subst h
    refine ⟨signed, rfl, hlen, hspec, ?_, ?_, ?_, rfl, ?_⟩
    · rfl
    · show (varEntriesFrom 0 signed).length = 3 * c.constructors.length
      rw [varEntriesFrom_length, hlen]
    · exact varEntriesFrom_keys_nodup signed 0
    · show "\n                mutation PlaceLimitOrder(" ++
        (String.join ((List.range' 0 signed.length).map fun i =>
          (if i = 0 then "" else ", ") ++ paramDecl i)) ++
        ") \x7b\n                    " ++
        (String.join (List.replicate signed.length callIndent) ++ "" ++
          String.join ((List.range' 0 signed.length).map callAlias)) ++
        "\n                \x7d\n            " = _
      rw [← List.range_eq_range', ← intercalate_range_eq, hlen,
        String.append_empty]

/-- Witness for C4: the one-element batch assembles with three variable-map
entries derived from its signed variables. -/
theorem batch_assembly_witness :
    ∃ body, testLimitBatch.signed_graphql_request 7 none testState = .ok body ∧
      ∃ signed, testLimitBatch.signed_variables 7 none testState = .ok signed ∧
        body.query_variables = varEntries signed ∧
        body.query_variables.length = 3 * testLimitBatch.constructors.length := by
  refine ⟨_, rfl, ?_⟩
  obtain ⟨signed, h1, h2, h3, h4, h5, h6, h7, h8⟩ :=
    batch_assembly testLimitBatch 7 none testState _ rfl
  exact ⟨signed, h1, h4, h5⟩
